import Mathlib

/-!
discord-content-downloader: URL extraction, association map and rewriting.

A shallow embedding of `main.go`.  A Go `string` is a sequence of bytes; it is
modelled as `Str := List Char`, one `Char` per byte, so that `len` is
`List.length` and slicing is `List.take` / `List.drop`.  All string literals in
this development are ASCII.

The network (the outcome of every HTTP request), the key iteration order of the
Go map and the entity table of `html.UnescapeString` are parameters of the model.
-/

namespace DiscordDownloader

/-- A Go string, byte by byte. -/
abbrev Str := List Char

/-- A Go `error` value, identified by its message. -/
abbrev GoError := Str

/-! ## The pieces of package `strings` the program uses -/

/-- Go `strings.HasPrefix`. -/
def hasPrefix (s pre : Str) : Bool := pre.isPrefixOf s

/-- Go `strings.HasSuffix`. -/
def hasSuffix (s suf : Str) : Bool := suf.isSuffixOf s

/-- Go `strings.Index`: the position of the first instance of `sub` in `s`;
`none` stands for the result `-1`. -/
def index : Str → Str → Option Nat
  | [], sub => if sub = [] then some 0 else none
  | c :: cs, sub =>
    if hasPrefix (c :: cs) sub then some 0 else (index cs sub).map (· + 1)

/-- Go `strings.Contains`, which is `Index(s, sub) >= 0`. -/
def contains (s sub : Str) : Bool := (index s sub).isSome

/-- Whether the byte `c` lies in `lo..hi`. -/
def byteIn (lo hi : Nat) (c : Char) : Bool := lo ≤ c.toNat && c.toNat ≤ hi

/-- The width `utf8.DecodeRuneInString` reports for the first rune of `s`: an
ASCII byte or a byte that starts no valid encoding has width 1. -/
def runeLen : Str → Nat
  | [] => 0
  | c0 :: rest =>
    let b0 := c0.toNat
    if b0 < 0xC2 then 1
    else if b0 ≤ 0xDF then
      match rest with
      | c1 :: _ => if byteIn 0x80 0xBF c1 then 2 else 1
      | _ => 1
    else if b0 ≤ 0xEF then
      match rest with
      | c1 :: c2 :: _ =>
        if byteIn (if b0 = 0xE0 then 0xA0 else 0x80) (if b0 = 0xED then 0x9F else 0xBF) c1
          && byteIn 0x80 0xBF c2 then 3 else 1
      | _ => 1
    else if b0 ≤ 0xF4 then
      match rest with
      | c1 :: c2 :: c3 :: _ =>
        if byteIn (if b0 = 0xF0 then 0x90 else 0x80) (if b0 = 0xF4 then 0x8F else 0xBF) c1
          && byteIn 0x80 0xBF c2 && byteIn 0x80 0xBF c3 then 4 else 1
      | _ => 1
    else 1

/-- `strings.ReplaceAll(s, "", new)` after its leading copy of `new`: `new` is
written after every rune of `s`.  The counter is the number of bytes of the
current rune that are still to be copied before `new` is written (0 at the
start of a rune). -/
def insertAtRunes (new : Str) : Nat → Str → Str
  | _, [] => []
  | 0, c :: cs =>
    if runeLen (c :: cs) ≤ 1 then c :: (new ++ insertAtRunes new 0 cs)
    else c :: insertAtRunes new (runeLen (c :: cs) - 1) cs
  | k + 1, c :: cs =>
    if k = 0 then c :: (new ++ insertAtRunes new 0 cs) else c :: insertAtRunes new k cs

/-- `strings.ReplaceAll(s, old, new)` for a non-empty `old`: the instances of
`old` are found left to right and do not overlap.  The counter is the number of
bytes of the instance just replaced that are still to be skipped. -/
def replaceScan (old new : Str) : Nat → Str → Str
  | _, [] => []
  | skip + 1, _ :: cs => replaceScan old new skip cs
  | 0, c :: cs =>
    if hasPrefix (c :: cs) old then new ++ replaceScan old new (old.length - 1) cs
    else c :: replaceScan old new 0 cs

/-- Go `strings.ReplaceAll`. -/
def replaceAll (s old new : Str) : Str :=
  if old = new then s
  else if old = [] then new ++ insertAtRunes new 0 s
  else replaceScan old new 0 s

/-! ## `extractCompleteURL` (lines 121-144) -/

/-- The slice `htmlTerminators`. -/
def htmlTerminators : List Str :=
  ["<".toList, ">".toList, "\"".toList, "'".toList, "</a>".toList, "</span>".toList]

/-- One round of the loop over the markers: `pos := strings.Index(cleanURL, marker)`
and the update of `earliestPos`. -/
def earliestStep (cleanURL : Str) (earliestPos : Nat) (marker : Str) : Nat :=
  match index cleanURL marker with
  | some pos => if 0 < pos ∧ pos < earliestPos then pos else earliestPos
  | none => earliestPos

/-- Go `extractCompleteURL`. -/
def extractCompleteURL (rawURL : Str) : Str :=
  let cleanURL := rawURL
  let earliestPos := htmlTerminators.foldl (earliestStep cleanURL) cleanURL.length
  if earliestPos < cleanURL.length then cleanURL.take earliestPos else cleanURL

/-! ## `getExtensionFromContentType` (lines 238-258) -/

/-- Go `getExtensionFromContentType`. -/
def getExtensionFromContentType (contentType : Str) : Str :=
  if contains contentType "image/jpeg".toList then ".jpg".toList
  else if contains contentType "image/png".toList then ".png".toList
  else if contains contentType "image/gif".toList then ".gif".toList
  else if contains contentType "image/webp".toList then ".webp".toList
  else if contains contentType "video/mp4".toList then ".mp4".toList
  else if contains contentType "video/quicktime".toList then ".mov".toList
  else if contains contentType "audio/mpeg".toList then ".mp3".toList
  else ".bin".toList

/-! ## MD5 (`crypto/md5`), RFC 1321 -/

/-- Per-round shift amounts. -/
def md5S : List Nat :=
  [7, 12, 17, 22, 7, 12, 17, 22, 7, 12, 17, 22, 7, 12, 17, 22,
   5, 9, 14, 20, 5, 9, 14, 20, 5, 9, 14, 20, 5, 9, 14, 20,
   4, 11, 16, 23, 4, 11, 16, 23, 4, 11, 16, 23, 4, 11, 16, 23,
   6, 10, 15, 21, 6, 10, 15, 21, 6, 10, 15, 21, 6, 10, 15, 21]

/-- The sine table. -/
def md5K : List Nat :=
  [0xd76aa478, 0xe8c7b756, 0x242070db, 0xc1bdceee, 0xf57c0faf, 0x4787c62a, 0xa8304613, 0xfd469501,
   0x698098d8, 0x8b44f7af, 0xffff5bb1, 0x895cd7be, 0x6b901122, 0xfd987193, 0xa679438e, 0x49b40821,
   0xf61e2562, 0xc040b340, 0x265e5a51, 0xe9b6c7aa, 0xd62f105d, 0x02441453, 0xd8a1e681, 0xe7d3fbc8,
   0x21e1cde6, 0xc33707d6, 0xf4d50d87, 0x455a14ed, 0xa9e3e905, 0xfcefa3f8, 0x676f02d9, 0x8d2a4c8a,
   0xfffa3942, 0x8771f681, 0x6d9d6122, 0xfde5380c, 0xa4beea44, 0x4bdecfa9, 0xf6bb4b60, 0xbebfbc70,
   0x289b7ec6, 0xeaa127fa, 0xd4ef3085, 0x04881d05, 0xd9d4d039, 0xe6db99e5, 0x1fa27cf8, 0xc4ac5665,
   0xf4292244, 0x432aff97, 0xab9423a7, 0xfc93a039, 0x655b59c3, 0x8f0ccc92, 0xffeff47d, 0x85845dd1,
   0x6fa87e4f, 0xfe2ce6e0, 0xa3014314, 0x4e0811a1, 0xf7537e82, 0xbd3af235, 0x2ad7d2bb, 0xeb86d391]

/-- Truncation to 32 bits. -/
def w32 (n : Nat) : Nat := n % 4294967296

/-- Left rotation of a 32-bit word. -/
def rotl32 (x c : Nat) : Nat := w32 (x <<< c) ||| (w32 x >>> (32 - c))

/-- Bitwise complement of a 32-bit word. -/
def not32 (x : Nat) : Nat := 4294967295 - w32 x

/-- The message followed by the bit 1, zeros up to 56 modulo 64 bytes, and the
bit length as 8 little-endian bytes. -/
def md5Pad (msg : List Nat) : List Nat :=
  msg ++ [128] ++ List.replicate ((55 + 64 - msg.length % 64) % 64) 0
    ++ (List.range 8).map (fun i => ((8 * msg.length) >>> (8 * i)) % 256)

/-- The little-endian word of the first four bytes. -/
def leWord (bs : List Nat) : Nat :=
  bs.getD 0 0 + 256 * (bs.getD 1 0 + 256 * (bs.getD 2 0 + 256 * bs.getD 3 0))

/-- One of the 64 operations on a block whose words are `m`. -/
def md5Step (m : List Nat) (st : Nat × Nat × Nat × Nat) (i : Nat) : Nat × Nat × Nat × Nat :=
  let (a, b, c, d) := st
  let f := if i < 16 then (b &&& c) ||| (not32 b &&& d)
    else if i < 32 then (d &&& b) ||| (not32 d &&& c)
    else if i < 48 then b ^^^ c ^^^ d
    else c ^^^ (b ||| not32 d)
  let g := if i < 16 then i else if i < 32 then (5 * i + 1) % 16
    else if i < 48 then (3 * i + 5) % 16 else (7 * i) % 16
  (d, w32 (b + rotl32 (w32 (f + a + md5K.getD i 0 + m.getD g 0)) (md5S.getD i 0)), b, c)

/-- The compression of one 64-byte block. -/
def md5Block (st : Nat × Nat × Nat × Nat) (blk : List Nat) : Nat × Nat × Nat × Nat :=
  let m := (List.range 16).map (fun j => leWord (blk.drop (4 * j)))
  let (a, b, c, d) := (List.range 64).foldl (md5Step m) st
  (w32 (st.1 + a), w32 (st.2.1 + b), w32 (st.2.2.1 + c), w32 (st.2.2.2 + d))

/-- The compression of the first `n` blocks of `bs`. -/
def md5Blocks : Nat → Nat × Nat × Nat × Nat → List Nat → Nat × Nat × Nat × Nat
  | 0, st, _ => st
  | n + 1, st, bs => md5Blocks n (md5Block st (bs.take 64)) (bs.drop 64)

/-- A lowercase hexadecimal digit. -/
def hexDigit (n : Nat) : Char := "0123456789abcdef".toList.getD n '0'

/-- The two hexadecimal digits of a byte, as `%x` prints them. -/
def hexByte (b : Nat) : Str := [hexDigit (b / 16), hexDigit (b % 16)]

/-- The four bytes of a word, least significant first. -/
def leBytes (w : Nat) : List Nat := (List.range 4).map (fun i => (w >>> (8 * i)) % 256)

/-- The value of `fmt.Sprintf("%x", hasher.Sum(nil))` after `hasher.Write([]byte(s))`:
the MD5 digest of `s` in lowercase hexadecimal. -/
def md5hex (s : Str) : Str :=
  let p := md5Pad (s.map (fun c => c.toNat % 256))
  let (a, b, c, d) :=
    md5Blocks (p.length / 64) (0x67452301, 0xefcdab89, 0x98badcfe, 0x10325476) p
  ((leBytes a ++ leBytes b ++ leBytes c ++ leBytes d).map hexByte).flatten

/-! ## `downloadImage` (lines 170-236) -/

/-- The part of `s` before the first byte `sep` (all of `s` without one):
the first result of `strings.Cut`. -/
def cutBefore (sep : Char) (s : Str) : Str := s.takeWhile (fun c => c != sep)

/-- The value of a hexadecimal digit. -/
def unhex (c : Char) : Option Nat :=
  if '0' ≤ c ∧ c ≤ '9' then some (c.toNat - '0'.toNat)
  else if 'a' ≤ c ∧ c ≤ 'f' then some (c.toNat - 'a'.toNat + 10)
  else if 'A' ≤ c ∧ c ≤ 'F' then some (c.toNat - 'A'.toNat + 10)
  else none

/-- Percent-decoding of a path as `net/url` does it for a URL it accepts: every
`%XY` becomes the byte `XY`. -/
def pctDecode : Str → Str
  | '%' :: x :: y :: rest =>
    match unhex x, unhex y with
    | some a, some b => Char.ofNat (16 * a + b) :: pctDecode rest
    | _, _ => '%' :: pctDecode (x :: y :: rest)
  | c :: rest => c :: pctDecode rest
  | [] => []

/-- The field `Path` of `url.Parse(imageURL)` for a URL the HTTP client accepted,
that is one of the form `scheme://authority/path?query#fragment`: the fragment
and the query are cut off, the scheme up to its colon and the authority between
`//` and the next `/` are dropped, and the rest is percent-decoded. -/
def urlPath (imageURL : Str) : Str :=
  let noFragment := cutBefore '#' imageURL
  let afterScheme := (noFragment.dropWhile (fun c => c != ':')).drop 1
  let rest := cutBefore '?' afterScheme
  let rest := if hasPrefix rest "//".toList then (rest.drop 2).dropWhile (fun c => c != '/') else rest
  pctDecode rest

/-- The loop of Go `path.Ext` over the reversed path: `acc` holds the bytes
already passed, in path order. -/
def pathExtAux : Str → Str → Str
  | [], _ => []
  | c :: before, acc =>
    if c = '/' then [] else if c = '.' then c :: acc else pathExtAux before (c :: acc)

/-- Go `path.Ext`: the suffix beginning at the final dot in the final
slash-separated element of the path; empty if there is no dot. -/
def pathExt (path : Str) : Str := pathExtAux path.reverse []

/-- The outcome of the `n`-th call of `downloadImage` in a run, as the world
decides it for the URL requested: an error (the request could not be built or
sent, the status was not 200, the file could not be created or written), or
success, with the `Content-Type` header of the response. -/
abbrev Net := Nat → Str → Except GoError Str

/-- The outcome of the `n`-th call of `downloadImage` for a URL: an error or the
file name. -/
abbrev Download := Nat → Str → Except GoError Str

/-- Go `downloadImage`: on success the file name is the MD5 digest of the URL in
hexadecimal followed by the extension of the URL path or, when the path has
none, the extension of the content type. -/
def downloadImage (net : Net) : Download := fun n imageURL =>
  match net n imageURL with
  | .error err => .error err
  | .ok contentType =>
    let ext := pathExt (urlPath imageURL)
    let ext := if ext = [] then getExtensionFromContentType contentType else ext
    let hash := md5hex imageURL
    let filename := hash ++ ext
    .ok filename

/-! ## `tryDownloadWithVariants` (lines 146-168) -/

/-- One call of `downloadImage`, as the run records it: the URL and the result. -/
structure Call where
  url : Str
  result : Except GoError Str

/-- The loop `for _, variant := range variants` with the variable `lastErr`;
`calls` is the record of all calls of `downloadImage` of the run so far. -/
def tryVariants (dl : Download) :
    List Str → Option GoError → List Call → Except GoError Str × List Call
  | [], lastErr, calls =>
    (match lastErr with
     | some err => .error err
     | none => .ok [], calls)
  | variant :: rest, _, calls =>
    match dl calls.length variant with
    | .ok filename => (.ok filename, calls ++ [⟨variant, .ok filename⟩])
    | .error err => tryVariants dl rest (some err) (calls ++ [⟨variant, .error err⟩])

/-- The slice `variants`: the URL, and the URL without its trailing ampersand
when it has one. -/
def variantsOf (imageURL : Str) : List Str :=
  if hasSuffix imageURL "&".toList then [imageURL, imageURL.take (imageURL.length - 1)]
  else [imageURL]

/-- Go `tryDownloadWithVariants`, with the record of calls threaded through. -/
def tryDownloadWithVariants (dl : Download) (calls : List Call) (imageURL : Str) :
    Except GoError Str × List Call :=
  tryVariants dl (variantsOf imageURL) none calls

/-! ## The extractor: `re.FindAllString(content, -1)` (lines 44-45) -/

/-- The literal part of the pattern. -/
def cdnPrefix : Str := "https://cdn.discordapp.com/".toList

/-- The character class of the pattern: any byte but the four delimiters and
the white space of `\s`, which is tab, line feed, form feed, carriage return
and space. -/
def isUrlByte (c : Char) : Bool := !("<>\"' \t\n\x0c\r".toList.contains c)

/-- The match of the pattern that starts at the beginning of `s`, if there is
one: the literal and the longest non-empty run of class bytes. -/
def matchAt (s : Str) : Option Str :=
  if hasPrefix s cdnPrefix then
    let run := (s.drop cdnPrefix.length).takeWhile isUrlByte
    if run = [] then none else some (cdnPrefix ++ run)
  else none

/-- The scan for successive leftmost matches; the counter is the number of
bytes of the last match that are still to be passed. -/
def findAllAux : Nat → Str → List Str
  | _, [] => []
  | skip + 1, _ :: cs => findAllAux skip cs
  | 0, c :: cs =>
    match matchAt (c :: cs) with
    | some m => m :: findAllAux (m.length - 1) cs
    | none => findAllAux 0 cs

/-- The matches of the resource-URL pattern in the document, in order. -/
def findAllString (content : Str) : List Str := findAllAux 0 content

/-! ## `html.UnescapeString` -/

/-- Go `html.UnescapeString`.  Its helper `unescapeEntity`, which holds the
entity tables, is the parameter `entity`: for the input from an `&` on it gives
the bytes to write and the number of input bytes it consumed.  Everything up to
the next `&` is copied.  The counter is the number of consumed bytes still to
be passed. -/
def unescapeAux (entity : Str → Str × Nat) : Nat → Str → Str
  | _, [] => []
  | skip + 1, _ :: cs => unescapeAux entity skip cs
  | 0, c :: cs =>
    if c = '&' then (entity (c :: cs)).1 ++ unescapeAux entity ((entity (c :: cs)).2 - 1) cs
    else c :: unescapeAux entity 0 cs

/-- Go `html.UnescapeString` over the entity decoder `entity`. -/
def unescapeString (entity : Str → Str × Nat) (s : Str) : Str := unescapeAux entity 0 s

/-- The entity decoder restricted to the one entity `&amp;`: any other `&` is
copied as it is.  It agrees with Go on every string in which each `&` either
starts `&amp;` or is followed by no letter, digit or `#`. -/
def entityAmp (s : Str) : Str × Nat :=
  if hasPrefix s "&amp;".toList then ("&".toList, 5) else ("&".toList, 1)

/-! ## The association map and the candidate loop of `main` (lines 47-90) -/

/-- The Go map `replacements`, as the list of its entries; every key occurs once. -/
abbrev GoMap := List (Str × Str)

/-- The value `replacements[k]` if the key is present. -/
def mapGet (m : GoMap) (k : Str) : Option Str := (m.find? (fun e => e.1 = k)).map Prod.snd

/-- The assignment `replacements[k] = v`. -/
def mapSet : GoMap → Str → Str → GoMap
  | [], k, v => [(k, v)]
  | (k0, v0) :: rest, k, v => if k0 = k then (k, v) :: rest else (k0, v0) :: mapSet rest k v

/-- The keys of the map. -/
def mapKeys (m : GoMap) : List Str := m.map Prod.fst

/-- The state of the candidate loop: the map and the record of the calls of
`downloadImage` made so far. -/
structure LoopState where
  replacements : GoMap
  calls : List Call

/-- The value of `cleanedURL` (lines 58-63): `extractCompleteURL(rawURL)` without
one trailing ampersand. -/
def cleanedOf (rawURL : Str) : Str :=
  let cleanedURL := extractCompleteURL rawURL
  if hasSuffix cleanedURL "&".toList then cleanedURL.take (cleanedURL.length - 1) else cleanedURL

/-- The value of `decodedURL` (line 66). -/
def decodedOf (unescape : Str → Str) (rawURL : Str) : Str := unescape (cleanedOf rawURL)

/-- The three assignments of lines 79-87. -/
def recordVariants (m : GoMap) (rawURL cleanedURL decodedURL localPath : Str) : GoMap :=
  let m := mapSet m rawURL localPath
  let m := if cleanedURL ≠ rawURL then mapSet m cleanedURL localPath else m
  if decodedURL ≠ cleanedURL then mapSet m decodedURL localPath else m

/-- One iteration of `for _, rawURL := range matches`. -/
def processCandidate (unescape : Str → Str) (dl : Download) (st : LoopState) (rawURL : Str) :
    LoopState :=
  if (mapGet st.replacements rawURL).isSome then st
  else
    let cleanedURL := cleanedOf rawURL
    let decodedURL := unescape cleanedURL
    match tryDownloadWithVariants dl st.calls decodedURL with
    | (.error _, calls) => { st with calls := calls }
    | (.ok filename, calls) =>
      let localPath := "static/".toList ++ filename
      { replacements := recordVariants st.replacements rawURL cleanedURL decodedURL localPath,
        calls := calls }

/-- The candidate loop from a given state. -/
def candidateLoop (unescape : Str → Str) (dl : Download) (st : LoopState) (found : List Str) :
    LoopState :=
  found.foldl (processCandidate unescape dl) st

/-- The state when the candidate loop of `main` has finished on a document. -/
def collect (unescape : Str → Str) (dl : Download) (content : Str) : LoopState :=
  candidateLoop unescape dl ⟨[], []⟩ (findAllString content)

/-! ## The length sort of `main` (lines 98-104) -/

/-- The body of the inner loop: `if len(urls[i]) < len(urls[j]) { swap }`. -/
def swapIfShorter (i : Nat) (urls : List Str) (j : Nat) : List Str :=
  if (urls.getD i []).length < (urls.getD j []).length then
    (urls.set i (urls.getD j [])).set j (urls.getD i [])
  else urls

/-- The inner loop `for j := i + 1; j < len(urls); j++`. -/
def innerLoop (urls : List Str) (i : Nat) : List Str :=
  (List.range' (i + 1) (urls.length - (i + 1))).foldl (swapIfShorter i) urls

/-- The outer loop `for i := 0; i < len(urls); i++`. -/
def sortLoop (urls : List Str) : List Str :=
  (List.range urls.length).foldl innerLoop urls

/-! ## The rewriter (lines 106-110) and `main` -/

/-- The loop `for _, url := range urls { content = strings.ReplaceAll(...) }`;
a key that is absent from the map reads as the empty string. -/
def rewriteLoop (m : GoMap) (urls : List Str) (content : Str) : Str :=
  urls.foldl (fun content url => replaceAll content url ((mapGet m url).getD [])) content

/-- The document `main` writes back.  `order` is the order in which
`for url := range replacements` yields the keys of the map, which Go leaves
unspecified: any permutation of the keys. -/
def main (unescape : Str → Str) (dl : Download) (order : List Str) (content : Str) : Str :=
  rewriteLoop (collect unescape dl content).replacements (sortLoop order) content

/-! ## Definitions used to state the properties -/

/-- One pass of the inner loop, told as a selection: `x` is the entry in slot
`i`, `done` the entries after it that the pass has compared, and the third
argument the entries still to come. -/
def selectLongest : Str → List Str → List Str → List Str
  | x, done, [] => x :: done
  | x, done, y :: t =>
    if x.length < y.length then selectLongest y (done ++ [x]) t
    else selectLongest x (done ++ [y]) t

/-- The table of content types and extensions, in the order of the `switch`. -/
def extensionTable : List (Str × Str) :=
  [("image/jpeg".toList, ".jpg".toList), ("image/png".toList, ".png".toList),
   ("image/gif".toList, ".gif".toList), ("image/webp".toList, ".webp".toList),
   ("video/mp4".toList, ".mp4".toList), ("video/quicktime".toList, ".mov".toList),
   ("audio/mpeg".toList, ".mp3".toList)]

/-- Whether some marker occurs in `s` at position `p`. -/
def markerAt (s : Str) (p : Nat) : Bool :=
  htmlTerminators.any (fun marker => hasPrefix (s.drop p) marker)

/-- Trimming as the specification words it: the prefix of `s` that ends just
before the smallest position greater than zero at which any marker occurs, and
`s` itself when there is no such position. -/
def trimAtEarliestMarker (s : Str) : Str :=
  match (List.range' 1 (s.length - 1)).find? (markerAt s) with
  | some p => s.take p
  | none => s

/-- A world in which every request succeeds with content type `image/png`. -/
def pngNet : Net := fun _ _ => .ok "image/png".toList

/-- A world in which the requests for the URL `u` succeed with content type
`image/png` and every other request is answered with status 404. -/
def onlyNet (u : Str) : Net := fun _ url =>
  if url = u then .ok "image/png".toList else .error "bad status: 404 Not Found".toList

/-! ### The rewriter with provenance

The same replacement pass over a buffer in which every byte carries a flag:
`false` for a byte of the document, `true` for a byte written by a replacement.
Instances of `old` are found on the bytes alone. -/

/-- A buffer with provenance flags. -/
abbrev MStr := List (Char × Bool)

/-- The bytes of a flagged buffer. -/
def erase (b : MStr) : Str := b.map Prod.fst

/-- Text of the document: every flag is `false`. -/
def fresh (s : Str) : MStr := s.map (fun c => (c, false))

/-- Text written by a replacement: every flag is `true`. -/
def inserted (s : Str) : MStr := s.map (fun c => (c, true))

/-- `insertAtRunes` on a flagged buffer. -/
def insertAtRunesM (new : Str) : Nat → MStr → MStr
  | _, [] => []
  | 0, c :: cs =>
    if runeLen (erase (c :: cs)) ≤ 1 then c :: (inserted new ++ insertAtRunesM new 0 cs)
    else c :: insertAtRunesM new (runeLen (erase (c :: cs)) - 1) cs
  | k + 1, c :: cs =>
    if k = 0 then c :: (inserted new ++ insertAtRunesM new 0 cs)
    else c :: insertAtRunesM new k cs

/-- `replaceScan` on a flagged buffer. -/
def replaceScanM (old new : Str) : Nat → MStr → MStr
  | _, [] => []
  | skip + 1, _ :: cs => replaceScanM old new skip cs
  | 0, c :: cs =>
    if hasPrefix (erase (c :: cs)) old then
      inserted new ++ replaceScanM old new (old.length - 1) cs
    else c :: replaceScanM old new 0 cs

/-- `replaceAll` on a flagged buffer. -/
def replaceAllM (b : MStr) (old new : Str) : MStr :=
  if old = new then b
  else if old = [] then inserted new ++ insertAtRunesM new 0 b
  else replaceScanM old new 0 b

/-- `rewriteLoop` on a flagged buffer. -/
def rewriteLoopM (m : GoMap) (urls : List Str) (b : MStr) : MStr :=
  urls.foldl (fun b url => replaceAllM b url ((mapGet m url).getD [])) b

/-- `main` with provenance: the document starts out as fresh text. -/
def mainMarked (unescape : Str → Str) (dl : Download) (order : List Str) (content : Str) :
    MStr :=
  rewriteLoopM (collect unescape dl content).replacements (sortLoop order) (fresh content)

/-- What the pattern matches: the literal, then at least one further byte, with
no white space and none of the four delimiters anywhere. -/
def IsMatch (m : Str) : Prop :=
  (∃ run, run ≠ [] ∧ m = cdnPrefix ++ run) ∧ ∀ c ∈ m, isUrlByte c = true

/-- That a match of the pattern starts at the beginning of `s`: the literal
followed by a byte of the class. -/
def StartsMatch (s : Str) : Prop :=
  ∃ c, isUrlByte c = true ∧ cdnPrefix ++ [c] <+: s

/-- The relation between a document and the list of matches the extractor owes
it.  The document is cut, in order, into a gap, a match, a gap, a match, and so
on up to a last gap; every match is followed by the end of the document or by a
byte outside the class; and no match starts anywhere in a gap. -/
inductive Extracted : Str → List Str → Prop
  | done (gap : Str) (hgap : ∀ pre suf, gap = pre ++ suf → ¬ StartsMatch suf) :
      Extracted gap []
  | step (gap m rest : Str) (ms : List Str)
      (hgap : ∀ pre suf, gap = pre ++ suf → suf ≠ [] → ¬ StartsMatch (suf ++ (m ++ rest)))
      (hm : IsMatch m)
      (hmax : ∀ d, rest.head? = some d → isUrlByte d = false)
      (hrest : Extracted rest ms) :
      Extracted (gap ++ (m ++ rest)) (m :: ms)

/-- A world in which the requests for the URL `u` are answered with status 404
and every other request succeeds with content type `image/png`. -/
def exceptNet (u : Str) : Net := fun _ url =>
  if url = u then .error "bad status: 404 Not Found".toList else .ok "image/png".toList

/-- A document put together from pieces: every piece but the last is followed
by one separator byte. -/
def joinPieces : List (Str × Char) → Str → Str
  | [], last => last
  | (p, d) :: rest, last => p ++ d :: joinPieces rest last

/-- What the rewriter makes of a piece that is a key or contains no key: the
local path of the key, or the piece itself. -/
def pieceImage (m : GoMap) (keys : List Str) (p : Str) : Str :=
  if p ∈ keys then (mapGet m p).getD [] else p

/-! ## The length sort: sorted and a permutation -/

theorem getD_append_cons {α : Type} (A B : List α) (x d : α) :
    (A ++ x :: B).getD A.length d = x := by
  induction A with
  | nil => rfl
  | cons a A ih => simpa using ih

theorem set_append_cons {α : Type} (A B : List α) (x y : α) :
    (A ++ x :: B).set A.length y = A ++ y :: B := by
  induction A with
  | nil => rfl
  | cons a A ih => simp [ih]

theorem swapIfShorter_append (A done t : List Str) (x y : Str) :
    swapIfShorter A.length (A ++ x :: (done ++ y :: t)) (A.length + 1 + done.length)
      = if x.length < y.length then A ++ y :: (done ++ x :: t)
        else A ++ x :: (done ++ y :: t) := by
  have hlen : A.length + 1 + done.length = (A ++ x :: done).length := by simp; omega
  have hlen2 : A.length + 1 + done.length = (A ++ y :: done).length := by simp; omega
  have e : A ++ x :: (done ++ y :: t) = (A ++ x :: done) ++ y :: t := by simp
  have h1 : (A ++ x :: (done ++ y :: t)).getD A.length [] = x := getD_append_cons _ _ _ _
  have h2 : (A ++ x :: (done ++ y :: t)).getD (A.length + 1 + done.length) [] = y := by
    rw [e, hlen]; exact getD_append_cons _ _ _ _
  unfold swapIfShorter
  rw [h1, h2]
  split
  · rw [set_append_cons]
    have e2 : A ++ y :: (done ++ y :: t) = (A ++ y :: done) ++ y :: t := by simp
    rw [e2, hlen2, set_append_cons]; simp
  · rfl

theorem foldl_swap_eq (A : List Str) : ∀ (t done : List Str) (x : Str),
    (List.range' (A.length + 1 + done.length) t.length).foldl (swapIfShorter A.length)
      (A ++ x :: (done ++ t)) = A ++ selectLongest x done t
  | [], done, x => by simp [selectLongest]
  | y :: t, done, x => by
    simp only [List.length_cons, List.range'_succ, List.foldl_cons]
    rw [swapIfShorter_append]
    by_cases h : x.length < y.length
    · simp only [h, if_true, selectLongest]
      have := foldl_swap_eq A t (done ++ [x]) y
      simp only [List.length_append, List.length_singleton, List.append_assoc,
        List.singleton_append] at this
      rw [← this]; congr 2
    · simp only [h, if_false, selectLongest]
      have := foldl_swap_eq A t (done ++ [y]) x
      simp only [List.length_append, List.length_singleton, List.append_assoc,
        List.singleton_append] at this
      rw [← this]; congr 2

theorem innerLoop_append (A t : List Str) (x : Str) :
    innerLoop (A ++ x :: t) A.length = A ++ selectLongest x [] t := by
  have := foldl_swap_eq A t [] x
  simp only [List.length_nil, Nat.add_zero, List.nil_append] at this
  unfold innerLoop
  rw [← this]; congr 2
  simp
  omega

theorem selectLongest_perm : ∀ (t done : List Str) (x : Str),
    (selectLongest x done t).Perm (x :: (done ++ t))
  | [], done, x => by simp [selectLongest]
  | y :: t, done, x => by
    have hmid : ∀ a b : Str, (a :: (done ++ b :: t)).Perm (b :: a :: (done ++ t)) := fun a b =>
      (List.perm_middle.cons a).trans (List.Perm.swap b a _)
    unfold selectLongest
    split
    · refine (selectLongest_perm t (done ++ [x]) y).trans ?_
      simp only [List.append_assoc, List.singleton_append]
      exact (hmid y x).trans (List.perm_middle.cons x).symm
    · refine (selectLongest_perm t (done ++ [y]) x).trans ?_
      simp

theorem selectLongest_head : ∀ (t done : List Str) (x : Str),
    (∀ e ∈ done, e.length ≤ x.length) →
    ∃ m r, selectLongest x done t = m :: r ∧ ∀ e ∈ r, e.length ≤ m.length
  | [], done, x, h => ⟨x, done, rfl, h⟩
  | y :: t, done, x, h => by
    unfold selectLongest
    split
    · apply selectLongest_head t (done ++ [x]) y
      intro e he
      rcases List.mem_append.1 he with he | he
      · exact le_of_lt (lt_of_le_of_lt (h e he) ‹_›)
      · simp at he; subst he; omega
    · apply selectLongest_head t (done ++ [y]) x
      intro e he
      rcases List.mem_append.1 he with he | he
      · exact h e he
      · simp at he; subst he; omega

/-- The list after the first `k` rounds of the outer loop: `k` sorted entries,
none shorter than any entry behind them. -/
theorem outer_invariant (urls : List Str) : ∀ k, k ≤ urls.length →
    ∃ S R, (List.range k).foldl innerLoop urls = S ++ R ∧ S.length = k ∧
      (S ++ R).Perm urls ∧ S.Pairwise (fun a b => b.length ≤ a.length) ∧
      ∀ a ∈ S, ∀ b ∈ R, b.length ≤ a.length
  | 0, _ => ⟨[], urls, by simp⟩
  | k + 1, hk => by
    obtain ⟨S, R, hfold, hlen, hperm, hsorted, hle⟩ := outer_invariant urls k (by omega)
    rw [List.range_succ, List.foldl_append, List.foldl_cons, List.foldl_nil, hfold]
    have hRlen : 0 < R.length := by
      have := hperm.length_eq
      simp only [List.length_append] at this
      omega
    obtain ⟨x, t, rfl⟩ : ∃ x t, R = x :: t := by
      cases R with
      | nil => simp at hRlen
      | cons x t => exact ⟨x, t, rfl⟩
    obtain ⟨m, r, hsel, hm⟩ := selectLongest_head t [] x (by simp)
    have hp := selectLongest_perm t [] x
    rw [hsel] at hp
    simp only [List.nil_append] at hp
    refine ⟨S ++ [m], r, ?_, by simp [hlen], ?_, ?_, ?_⟩
    · rw [← hlen, innerLoop_append, hsel]; simp
    · refine List.Perm.trans ?_ hperm
      simpa using hp.append_left S
    · rw [List.pairwise_append]
      refine ⟨hsorted, List.pairwise_singleton _ _, ?_⟩
      intro a ha b hb
      simp only [List.mem_singleton] at hb
      subst hb
      exact hle a ha b (hp.subset (List.mem_cons_self _ _))
    · intro a ha b hb
      rcases List.mem_append.1 ha with ha | ha
      · exact hle a ha b (hp.subset (List.mem_cons_of_mem _ hb))
      · simp only [List.mem_singleton] at ha
        subst ha
        exact hm b hb

/-- The exchange loop permutes its input. -/
theorem sortLoop_perm (urls : List Str) : (sortLoop urls).Perm urls := by
  obtain ⟨S, R, hfold, -, hperm, -, -⟩ := outer_invariant urls urls.length le_rfl
  unfold sortLoop
  rw [hfold]
  exact hperm

/-- C1: for every list of keys the exchange loop of `main` ends (it is a pair
of bounded loops, hence a total function) with a permutation of the list whose
string lengths never increase from front to back. -/
theorem sortLoop_sorted_perm (urls : List Str) :
    (sortLoop urls).Perm urls ∧
      (sortLoop urls).Pairwise (fun a b => b.length ≤ a.length) := by
  obtain ⟨S, R, hfold, hlen, hperm, hsorted, -⟩ := outer_invariant urls urls.length le_rfl
  have hR : R = [] := by
    have := hperm.length_eq
    simp only [List.length_append] at this
    exact List.length_eq_zero.1 (by omega)
  subst hR
  unfold sortLoop
  rw [hfold]
  simp only [List.append_nil] at hperm ⊢
  exact ⟨hperm, hsorted⟩

/-! ## `getExtensionFromContentType` -/

/-- C10: `getExtensionFromContentType` returns the extension of the first entry
of the table, in the order jpeg, png, gif, webp, mp4, quicktime, mpeg, whose
MIME name occurs in the content type; it returns `.bin` exactly when the
content type contains none of the seven names; `image/webp` gives `.webp`. -/
theorem getExtension_first_match (c : Str) :
    getExtensionFromContentType c
        = ((extensionTable.find? (fun e => contains c e.1)).map Prod.snd).getD ".bin".toList ∧
      (getExtensionFromContentType c = ".bin".toList ↔
        ∀ e ∈ extensionTable, contains c e.1 = false) ∧
      getExtensionFromContentType "image/webp".toList = ".webp".toList := by
  refine ⟨?_, ?_, by decide⟩
  · simp only [getExtensionFromContentType, extensionTable, List.find?]
    repeat' split
    all_goals simp_all
  · simp only [getExtensionFromContentType, extensionTable]
    repeat' split
    all_goals simp_all

/-! ## Longest key first -/

theorem replaceScan_skip_all (old new : Str) : ∀ (s : Str) (k : Nat), s.length ≤ k →
    replaceScan old new k s = []
  | [], _, _ => by cases ‹Nat› <;> rfl
  | _ :: cs, 0, h => by simp at h
  | _ :: cs, k + 1, h => by
    simp only [replaceScan]
    exact replaceScan_skip_all old new cs k (by simpa using h)

theorem hasPrefix_self (s : Str) : hasPrefix s s = true := by
  simp [hasPrefix]

/-- Replacing a non-empty string in itself leaves the replacement. -/
theorem replaceAll_self (l Y : Str) (hl : l ≠ []) : replaceAll l l Y = Y := by
  unfold replaceAll
  by_cases h : l = Y
  · simp [h]
  · simp only [h, if_false, hl]
    cases l with
    | nil => exact absurd rfl hl
    | cons c cs =>
      simp only [replaceScan, hasPrefix_self, if_true, List.length_cons, Nat.add_sub_cancel]
      rw [replaceScan_skip_all _ _ _ _ le_rfl]; simp

theorem sortLoop_pair (a b : Str) :
    sortLoop [a, b] = if a.length < b.length then [b, a] else [a, b] := by
  have h := innerLoop_append [] [b] a
  simp only [List.nil_append, List.length_nil] at h
  have h1 : ∀ x y : Str, innerLoop [x, y] 1 = [x, y] := by
    intro x y; simp [innerLoop]
  simp only [sortLoop, List.length_cons, List.length_nil, List.range_succ, List.range_zero,
    List.nil_append, List.foldl_cons, List.foldl_nil, List.cons_append, Nat.zero_add]
  rw [h]
  simp only [selectLongest]
  split <;> simp [h1]

theorem perm_pair {α : Type} {urls : List α} {a b : α} (h : urls.Perm [a, b]) :
    urls = [a, b] ∨ urls = [b, a] := by
  have hl := h.length_eq
  match urls, hl with
  | [x, y], _ =>
    have hx : x ∈ [a, b] := h.subset (List.mem_cons_self _ _)
    have hy : y ∈ [a, b] := h.subset (List.mem_cons_of_mem _ (List.mem_cons_self _ _))
    have ha : a ∈ [x, y] := h.symm.subset (List.mem_cons_self _ _)
    have hb : b ∈ [x, y] := h.symm.subset (List.mem_cons_of_mem _ (List.mem_cons_self _ _))
    simp only [List.mem_cons, List.mem_singleton, List.not_mem_nil, or_false] at hx hy ha hb
    rcases hx with rfl | rfl <;> rcases hy with rfl | rfl <;> simp_all

/-- C2: with the associations `abc -> X` and `abcdef -> Y`, the document
`abcdef` is rewritten to `Y` in whichever order the two keys are collected; and
for every map that sends a key `s` to `X` and a longer key `l` to `Y`, sorting
the two keys and replacing in that order turns the document `l` into `Y` with
every occurrence of `s` in it replaced by `X`. -/
theorem rewrite_longest_first :
    (∀ urls : List Str, urls.Perm ["abc".toList, "abcdef".toList] →
      rewriteLoop [("abc".toList, "X".toList), ("abcdef".toList, "Y".toList)]
        (sortLoop urls) "abcdef".toList = "Y".toList) ∧
    (∀ (m : GoMap) (s l X Y : Str) (urls : List Str),
      s.length < l.length → mapGet m s = some X → mapGet m l = some Y → urls.Perm [s, l] →
      rewriteLoop m (sortLoop urls) l = replaceAll Y s X) := by
  have general : ∀ (m : GoMap) (s l X Y : Str) (urls : List Str),
      s.length < l.length → mapGet m s = some X → mapGet m l = some Y → urls.Perm [s, l] →
      rewriteLoop m (sortLoop urls) l = replaceAll Y s X := by
    intro m s l X Y urls hlt hs hl hp
    have hl0 : l ≠ [] := by
      intro h; subst h; simp at hlt
    have hsorted : sortLoop urls = [l, s] := by
      rcases perm_pair hp with rfl | rfl
      · rw [sortLoop_pair]; simp [hlt]
      · rw [sortLoop_pair]; simp [Nat.lt_asymm hlt]
    rw [hsorted]
    simp only [rewriteLoop, List.foldl_cons, List.foldl_nil, hs, hl, Option.getD_some]
    rw [replaceAll_self l Y hl0]
  refine ⟨?_, general⟩
  intro urls hp
  rw [general _ "abc".toList "abcdef".toList "X".toList "Y".toList urls (by decide) (by decide)
    (by decide) hp]
  decide

/-- C2 at the keys `abc`, `abcdef` collected shortest first. -/
theorem rewrite_longest_first_witness :
    "abc".toList.length < "abcdef".toList.length ∧
      rewriteLoop [("abc".toList, "X".toList), ("abcdef".toList, "Y".toList)]
        (sortLoop ["abc".toList, "abcdef".toList]) "abcdef".toList
        = replaceAll "Y".toList "abc".toList "X".toList ∧
      replaceAll "Y".toList "abc".toList "X".toList = "Y".toList :=
  ⟨by decide,
   rewrite_longest_first.2 _ "abc".toList "abcdef".toList "X".toList "Y".toList _
     (by decide) (by decide) (by decide) (List.Perm.refl _),
   by decide⟩

/-! ## `tryDownloadWithVariants` -/

/-- C7: `tryDownloadWithVariants(u)` attempts `u` first and returns its file
name without a further attempt if that succeeds; otherwise, exactly when `u`
ends with `&`, it attempts `u` without that one trailing `&` and returns the
result of that attempt, and when `u` does not end with `&` it returns the error
of the only attempt.  The attempts it adds to the record are at most two, the
first is `u`; it returns an error exactly when all of them failed, and the
error is that of the last one. -/
theorem tryDownloadWithVariants_spec (dl : Download) (calls : List Call) (u : Str) :
    (∀ f, dl calls.length u = .ok f →
      tryDownloadWithVariants dl calls u = (.ok f, calls ++ [⟨u, .ok f⟩])) ∧
    (∀ e, dl calls.length u = .error e → hasSuffix u "&".toList = true →
      tryDownloadWithVariants dl calls u
        = (dl (calls.length + 1) (u.take (u.length - 1)),
           calls ++ [⟨u, .error e⟩,
             ⟨u.take (u.length - 1), dl (calls.length + 1) (u.take (u.length - 1))⟩])) ∧
    (∀ e, dl calls.length u = .error e → hasSuffix u "&".toList = false →
      tryDownloadWithVariants dl calls u = (.error e, calls ++ [⟨u, .error e⟩])) ∧
    (∃ first rest, (tryDownloadWithVariants dl calls u).2 = calls ++ first :: rest ∧
      first.url = u ∧ rest.length ≤ 1 ∧
      ∀ e, (tryDownloadWithVariants dl calls u).1 = .error e ↔
        ((∀ c ∈ first :: rest, ∃ e1, c.result = .error e1) ∧
          ((first :: rest).getLast (List.cons_ne_nil _ _)).result = .error e)) := by
  have hok : ∀ f, dl calls.length u = .ok f →
      tryDownloadWithVariants dl calls u = (.ok f, calls ++ [⟨u, .ok f⟩]) := by
    intro f hf
    unfold tryDownloadWithVariants variantsOf
    split <;> simp [tryVariants, hf]
  have herr2 : ∀ e, dl calls.length u = .error e → hasSuffix u "&".toList = true →
      tryDownloadWithVariants dl calls u
        = (dl (calls.length + 1) (u.take (u.length - 1)),
           calls ++ [⟨u, .error e⟩,
             ⟨u.take (u.length - 1), dl (calls.length + 1) (u.take (u.length - 1))⟩]) := by
    intro e he hs
    unfold tryDownloadWithVariants variantsOf
    simp only [hs, if_true, tryVariants, he, List.length_append, List.length_singleton]
    cases h2 : dl (calls.length + 1) (u.take (u.length - 1)) <;> simp [tryVariants]
  have herr1 : ∀ e, dl calls.length u = .error e → hasSuffix u "&".toList = false →
      tryDownloadWithVariants dl calls u = (.error e, calls ++ [⟨u, .error e⟩]) := by
    intro e he hs
    unfold tryDownloadWithVariants variantsOf
    simp only [hs, Bool.false_eq_true, if_false, tryVariants, he]
  refine ⟨hok, herr2, herr1, ?_⟩
  cases h1 : dl calls.length u with
  | ok f =>
    refine ⟨⟨u, .ok f⟩, [], ?_, rfl, by simp, ?_⟩
    · rw [hok f h1]
    · intro e; rw [hok f h1]; simp
  | error e1 =>
    cases hs : hasSuffix u "&".toList with
    | false =>
      refine ⟨⟨u, .error e1⟩, [], ?_, rfl, by simp, ?_⟩
      · rw [herr1 e1 h1 hs]
      · intro e; rw [herr1 e1 h1 hs]; simp
    | true =>
      refine ⟨⟨u, .error e1⟩,
        [⟨u.take (u.length - 1), dl (calls.length + 1) (u.take (u.length - 1))⟩], ?_, rfl,
        by simp, ?_⟩
      · rw [herr2 e1 h1 hs]
      · intro e; rw [herr2 e1 h1 hs]
        cases h2 : dl (calls.length + 1) (u.take (u.length - 1)) <;> simp

/-- C7 at a URL ending in `&` whose first attempt fails and whose second
attempt, without the `&`, succeeds. -/
theorem tryDownloadWithVariants_spec_witness :
    tryDownloadWithVariants
        (fun n _ => if n = 0 then .error "bad status: 404".toList else .ok "f.png".toList)
        [] "https://cdn.discordapp.com/x&".toList
      = (.ok "f.png".toList,
         [⟨"https://cdn.discordapp.com/x&".toList, .error "bad status: 404".toList⟩,
          ⟨"https://cdn.discordapp.com/x".toList, .ok "f.png".toList⟩]) :=
  (tryDownloadWithVariants_spec
    (fun n _ => if n = 0 then .error "bad status: 404".toList else .ok "f.png".toList)
    [] "https://cdn.discordapp.com/x&".toList).2.1 "bad status: 404".toList rfl (by decide)

/-! ## The candidate loop -/

/-- C6: if `tryDownloadWithVariants` returns an error for the decoded URL of a
candidate, the iteration for that candidate leaves the association map as it
was, and the loop goes on with the next candidate from that map. -/
theorem processCandidate_error_keeps_map (unescape : Str → Str) (dl : Download)
    (st : LoopState) (rawURL : Str) (rest : List Str) (err : GoError)
    (h : (tryDownloadWithVariants dl st.calls (decodedOf unescape rawURL)).1 = .error err) :
    (processCandidate unescape dl st rawURL).replacements = st.replacements ∧
      candidateLoop unescape dl st (rawURL :: rest)
        = candidateLoop unescape dl (processCandidate unescape dl st rawURL) rest := by
  refine ⟨?_, rfl⟩
  unfold decodedOf at h
  unfold processCandidate
  split
  · rfl
  · cases hres : tryDownloadWithVariants dl st.calls (unescape (cleanedOf rawURL)) with
    | mk r c =>
      rw [hres] at h
      simp only at h
      subst h
      simp only [hres]

/-- C6 at a candidate whose only download attempt fails, with an entry already
in the map. -/
theorem processCandidate_error_keeps_map_witness :
    (processCandidate (unescapeString entityAmp) (fun _ _ => .error "bad status: 404".toList)
        ⟨[("https://cdn.discordapp.com/a".toList, "static/a.png".toList)], []⟩
        "https://cdn.discordapp.com/b".toList).replacements
      = [("https://cdn.discordapp.com/a".toList, "static/a.png".toList)] :=
  (processCandidate_error_keeps_map (unescapeString entityAmp)
    (fun _ _ => .error "bad status: 404".toList)
    ⟨[("https://cdn.discordapp.com/a".toList, "static/a.png".toList)], []⟩
    "https://cdn.discordapp.com/b".toList [] "bad status: 404".toList rfl).1

/-! ## `extractCompleteURL` -/

theorem index_lt : ∀ (s sub : Str) (p : Nat), sub ≠ [] → index s sub = some p → p < s.length
  | [], sub, p, hsub, h => by simp [index, hsub] at h
  | c :: cs, sub, p, hsub, h => by
    unfold index at h
    split at h
    · cases h; simp
    · cases hi : index cs sub with
      | none => simp [hi] at h
      | some q =>
        simp only [hi, Option.map_some', Option.some.injEq] at h
        subst h
        have := index_lt cs sub q hsub hi
        simp only [List.length_cons]; omega

/-- The value of `earliestPos` after the loop over a list of markers: it never
exceeds the start value; it is the start value or the first position, greater
than zero, of one of the markers; and no marker has its first position, if
greater than zero, before it. -/
theorem earliest_fold (s : Str) : ∀ (markers : List Str) (start : Nat),
    markers.foldl (earliestStep s) start ≤ start ∧
    (markers.foldl (earliestStep s) start = start ∨
      ∃ m ∈ markers, index s m = some (markers.foldl (earliestStep s) start) ∧
        0 < markers.foldl (earliestStep s) start) ∧
    ∀ m ∈ markers, ∀ p, index s m = some p → 0 < p → markers.foldl (earliestStep s) start ≤ p
  | [], start => by simp
  | m :: ms, start => by
    obtain ⟨h1, h2, h3⟩ := earliest_fold s ms (earliestStep s start m)
    have hstep : earliestStep s start m ≤ start ∧
        (earliestStep s start m = start ∨
          (index s m = some (earliestStep s start m) ∧ 0 < earliestStep s start m)) ∧
        ∀ p, index s m = some p → 0 < p → earliestStep s start m ≤ p := by
      unfold earliestStep
      cases hi : index s m with
      | none => simp
      | some q =>
        dsimp only
        by_cases hq : 0 < q ∧ q < start
        · rw [if_pos hq]
          exact ⟨le_of_lt hq.2, Or.inr ⟨rfl, hq.1⟩, fun p hp _ => by cases hp; exact le_rfl⟩
        · rw [if_neg hq]
          refine ⟨le_rfl, Or.inl rfl, fun p hp hp0 => ?_⟩
          cases hp
          by_contra hlt
          exact hq ⟨hp0, by omega⟩
    simp only [List.foldl_cons]
    refine ⟨le_trans h1 hstep.1, ?_, ?_⟩
    · rcases h2 with h2 | ⟨m', hm', hidx, hpos⟩
      · rcases hstep.2.1 with h4 | h4
        · left; rw [h2, h4]
        · right; exact ⟨m, List.mem_cons_self _ _, by rw [h2]; exact h4.1, by rw [h2]; exact h4.2⟩
      · right; exact ⟨m', List.mem_cons_of_mem _ hm', hidx, hpos⟩
    · intro m' hm' p hp hp0
      rcases List.mem_cons.1 hm' with rfl | hm'
      · exact le_trans h1 (hstep.2.2 p hp hp0)
      · exact h3 m' hm' p hp hp0

theorem htmlTerminators_ne_nil : ∀ m ∈ htmlTerminators, m ≠ [] := by decide

/-- The value of `extractCompleteURL` in terms of the first occurrences of the
markers. -/
theorem extractCompleteURL_least (s : Str) :
    (∀ p, IsLeast {q | 0 < q ∧ ∃ m ∈ htmlTerminators, index s m = some q} p →
      extractCompleteURL s = s.take p) ∧
    ((∀ m ∈ htmlTerminators, ∀ q, index s m = some q → q = 0) → extractCompleteURL s = s) := by
  obtain ⟨h1, h2, h3⟩ := earliest_fold s htmlTerminators s.length
  constructor
  · intro p hp
    obtain ⟨⟨hp0, m, hm, hidx⟩, hleast⟩ := hp
    have hplt : p < s.length := index_lt s m p (htmlTerminators_ne_nil m hm) hidx
    have hle : htmlTerminators.foldl (earliestStep s) s.length ≤ p := h3 m hm p hidx hp0
    have heq : htmlTerminators.foldl (earliestStep s) s.length = p := by
      rcases h2 with h2 | ⟨m', hm', hidx', hpos'⟩
      · omega
      · exact le_antisymm hle (hleast ⟨hpos', m', hm', hidx'⟩)
    simp only [extractCompleteURL, heq, hplt, if_true]
  · intro hnone
    have heq : htmlTerminators.foldl (earliestStep s) s.length = s.length := by
      rcases h2 with h2 | ⟨m', hm', hidx', hpos'⟩
      · exact h2
      · have := hnone m' hm' _ hidx'
        omega
    simp only [extractCompleteURL, heq, lt_irrefl, if_false]

theorem find_range'_some (P : Nat → Bool) : ∀ (n a p : Nat),
    (List.range' a n).find? P = some p →
    a ≤ p ∧ p < a + n ∧ P p = true ∧ ∀ q, a ≤ q → q < p → P q = false
  | 0, a, p, h => by simp at h
  | n + 1, a, p, h => by
    rw [List.range'_succ, List.find?_cons] at h
    cases hP : P a with
    | true =>
      rw [hP] at h
      cases h
      exact ⟨le_rfl, by omega, hP, fun q h1 h2 => by omega⟩
    | false =>
      rw [hP] at h
      obtain ⟨h1, h2, h3, h4⟩ := find_range'_some P n (a + 1) p h
      refine ⟨by omega, by omega, h3, fun q hq1 hq2 => ?_⟩
      by_cases hqa : q = a
      · rw [hqa]; exact hP
      · exact h4 q (by omega) hq2

theorem find_range'_none (P : Nat → Bool) : ∀ (n a : Nat),
    (List.range' a n).find? P = none → ∀ q, a ≤ q → q < a + n → P q = false
  | 0, a, _, q, h1, h2 => by omega
  | n + 1, a, h, q, h1, h2 => by
    rw [List.range'_succ, List.find?_cons] at h
    cases hP : P a with
    | true => rw [hP] at h; cases h
    | false =>
      rw [hP] at h
      by_cases hqa : q = a
      · rw [hqa]; exact hP
      · exact find_range'_none P n (a + 1) h q (by omega) (by omega)

/-- `strings.Index` gives the first position at which `sub` occurs. -/
theorem index_eq_some_iff : ∀ (s sub : Str) (p : Nat),
    index s sub = some p ↔
      p ≤ s.length ∧ hasPrefix (s.drop p) sub = true ∧
        ∀ q, q < p → hasPrefix (s.drop q) sub = false
  | [], sub, p => by
    unfold index
    constructor
    · intro h
      split at h
      · cases h
        rename_i hsub
        subst hsub
        exact ⟨le_rfl, by simp [hasPrefix], fun q hq => by omega⟩
      · cases h
    · rintro ⟨h1, h2, -⟩
      have hp : p = 0 := by simpa using h1
      subst hp
      have : sub = [] := by
        cases sub with
        | nil => rfl
        | cons a t => simp [hasPrefix, List.isPrefixOf] at h2
      simp [this]
  | c :: cs, sub, p => by
    have ih := index_eq_some_iff cs sub
    unfold index
    by_cases hp0 : hasPrefix (c :: cs) sub = true
    · simp only [hp0, if_true]
      constructor
      · intro h
        cases h
        exact ⟨Nat.zero_le _, hp0, fun q hq => by omega⟩
      · rintro ⟨-, -, h3⟩
        cases p with
        | zero => rfl
        | succ p =>
          have := h3 0 (Nat.succ_pos _)
          simp only [List.drop_zero] at this
          rw [hp0] at this
          cases this
    · simp only [hp0, Bool.false_eq_true, if_false]
      constructor
      · intro h
        cases hi : index cs sub with
        | none => rw [hi] at h; cases h
        | some r =>
          rw [hi] at h
          simp only [Option.map_some', Option.some.injEq] at h
          subst h
          obtain ⟨h1, h2, h3⟩ := (ih r).1 hi
          refine ⟨by simpa using h1, by simpa using h2, fun q hq => ?_⟩
          cases q with
          | zero => simpa using hp0
          | succ q => simpa using h3 q (by omega)
      · rintro ⟨h1, h2, h3⟩
        cases p with
        | zero =>
          simp only [List.drop_zero] at h2
          exact absurd h2 hp0
        | succ r =>
          have := (ih r).2 ⟨by simpa using h1, by simpa using h2,
            fun q hq => by simpa using h3 (q + 1) (by omega)⟩
          rw [this]
          rfl

theorem markerAt_iff (s : Str) (p : Nat) :
    markerAt s p = true ↔ ∃ m ∈ htmlTerminators, hasPrefix (s.drop p) m = true := by
  simp [markerAt, List.any_eq_true]

/-- On a string that does not begin with a marker, `extractCompleteURL` trims at
the earliest occurrence of any marker, as the specification words it. -/
theorem extractCompleteURL_eq_trim (s : Str) (h0 : markerAt s 0 = false) :
    extractCompleteURL s = trimAtEarliestMarker s := by
  have hfalse : ∀ q, markerAt s q = false → ∀ m ∈ htmlTerminators,
      hasPrefix (s.drop q) m = false := by
    intro q hq m hm
    cases hh : hasPrefix (s.drop q) m with
    | false => rfl
    | true =>
      have := (markerAt_iff s q).2 ⟨m, hm, hh⟩
      rw [hq] at this
      cases this
  unfold trimAtEarliestMarker
  cases hf : (List.range' 1 (s.length - 1)).find? (markerAt s) with
  | some p =>
    obtain ⟨h1, h2, h3, h4⟩ := find_range'_some _ _ _ _ hf
    obtain ⟨m, hm, hpm⟩ := (markerAt_iff s p).1 h3
    have hidx : index s m = some p := by
      rw [index_eq_some_iff]
      refine ⟨by omega, hpm, fun q hq => ?_⟩
      by_cases hq0 : q = 0
      · rw [hq0]; exact hfalse 0 h0 m hm
      · exact hfalse q (h4 q (by omega) hq) m hm
    refine (extractCompleteURL_least s).1 p ⟨⟨by omega, m, hm, hidx⟩, ?_⟩
    rintro q ⟨hq0, m', hm', hidx'⟩
    by_contra hlt
    have hq := (index_eq_some_iff s m' q).1 hidx'
    have := hfalse q (h4 q (by omega) (by omega)) m' hm'
    rw [hq.2.1] at this
    cases this
  | none =>
    have hn := find_range'_none _ _ _ hf
    refine (extractCompleteURL_least s).2 ?_
    intro m hm q hidx
    by_contra hq0
    have hlt := index_lt s m q (htmlTerminators_ne_nil m hm) hidx
    have hq := (index_eq_some_iff s m q).1 hidx
    have := hfalse q (hn q (by omega) (by omega)) m hm
    rw [hq.2.1] at this
    cases this

/-- C8, amended: `extractCompleteURL(s)` is the prefix of `s` that ends just
before the smallest position greater than zero among the positions
`strings.Index(s, marker)` of the six markers, that is among their first
occurrences; a marker whose first occurrence is at position zero is not
considered at all.  When no marker has its first occurrence at a position
greater than zero the result is `s`.  For a string that does not begin with a
marker this is the earliest occurrence of any marker at a position greater than
zero, as the claim words it. -/
theorem extractCompleteURL_first_occurrences (s : Str) :
    (∀ p, IsLeast {q | 0 < q ∧ ∃ m ∈ htmlTerminators, index s m = some q} p →
      extractCompleteURL s = s.take p) ∧
    ((∀ m ∈ htmlTerminators, ∀ q, index s m = some q → q = 0) → extractCompleteURL s = s) ∧
    (markerAt s 0 = false → extractCompleteURL s = trimAtEarliestMarker s) :=
  ⟨(extractCompleteURL_least s).1, (extractCompleteURL_least s).2,
    extractCompleteURL_eq_trim s⟩

/-- C8 amended, at `a<b</a>`: the smallest first occurrence is that of `<` at
position 1, and the string does not begin with a marker. -/
theorem extractCompleteURL_first_occurrences_witness :
    extractCompleteURL "a<b</a>".toList = "a".toList ∧
      extractCompleteURL "a<b</a>".toList = trimAtEarliestMarker "a<b</a>".toList :=
  ⟨(extractCompleteURL_first_occurrences "a<b</a>".toList).1 1
      ⟨⟨by decide, "<".toList, by decide, by decide⟩, fun q hq => hq.1⟩,
    (extractCompleteURL_first_occurrences "a<b</a>".toList).2.2 (by decide)⟩

/-- C8 as stated fails at `<a<b`: a marker, `<`, occurs at position 2 and at no
smaller position greater than zero, so the claim gives `<a`; the code returns
the string whole, since `strings.Index` reports position 0 for `<` and the
later occurrence is never looked at. -/
theorem extractCompleteURL_counterexample :
    markerAt "<a<b".toList 2 = true ∧ markerAt "<a<b".toList 1 = false ∧
      trimAtEarliestMarker "<a<b".toList = "<a".toList ∧
      extractCompleteURL "<a<b".toList = "<a<b".toList ∧
      extractCompleteURL "<a<b".toList ≠ trimAtEarliestMarker "<a<b".toList := by
  decide

/-! ## The candidate loop on two documents with a trailing ampersand -/

set_option maxRecDepth 100000 in
/-- C3 at the document `https://cdn.discordapp.com/x& https://cdn.discordapp.com/x&&`
with every download succeeding.  After the first candidate its raw match `...x&`
and its trimmed form `...x` map to the same path.  The second candidate `...x&&`
has `...x&` as its trimmed form and assigns it again: at the end of the loop the
key `...x&` has another path than before, and the two variants of the first
candidate map to different paths. -/
theorem overwritten_variant_eval :
    findAllString "https://cdn.discordapp.com/x& https://cdn.discordapp.com/x&&".toList
        = ["https://cdn.discordapp.com/x&".toList, "https://cdn.discordapp.com/x&&".toList] ∧
      mapGet (candidateLoop (unescapeString entityAmp) (downloadImage pngNet) ⟨[], []⟩
          ["https://cdn.discordapp.com/x&".toList]).replacements
          "https://cdn.discordapp.com/x&".toList
        = some "static/d7bc0c7605945573ef82066538d4999b.png".toList ∧
      mapGet (collect (unescapeString entityAmp) (downloadImage pngNet)
          "https://cdn.discordapp.com/x& https://cdn.discordapp.com/x&&".toList).replacements
          "https://cdn.discordapp.com/x&".toList
        = some "static/b00f30f70283723fe3e30ec331ff9f6d.png".toList ∧
      mapGet (collect (unescapeString entityAmp) (downloadImage pngNet)
          "https://cdn.discordapp.com/x& https://cdn.discordapp.com/x&&".toList).replacements
          "https://cdn.discordapp.com/x".toList
        = some "static/d7bc0c7605945573ef82066538d4999b.png".toList := by
  decide

set_option maxRecDepth 100000 in
/-- C4 at the document `https://cdn.discordapp.com/x https://cdn.discordapp.com/x&`
with every download succeeding: the record of the calls of `downloadImage`
holds the URL `https://cdn.discordapp.com/x` twice, both calls successful.  The
second candidate is not yet a key, so it is not skipped, and its decoded URL is
the URL the first candidate fetched. -/
theorem repeated_download_eval :
    (collect (unescapeString entityAmp) (downloadImage pngNet)
        "https://cdn.discordapp.com/x https://cdn.discordapp.com/x&".toList).calls.map
        (fun c => (c.url, c.result.toBool))
      = [("https://cdn.discordapp.com/x".toList, true),
         ("https://cdn.discordapp.com/x".toList, true)] := by
  decide

/-! ## Replacement and the text around an occurrence -/

theorem hasPrefix_append_delim (d : Char) (B : Str) : ∀ (old X : Str), d ∉ old →
    hasPrefix (X ++ d :: B) old = hasPrefix X old
  | [], X, _ => by simp [hasPrefix]
  | o :: old, [], h => by
    have : o ≠ d := fun e => h (by simp [e])
    simp [hasPrefix, List.isPrefixOf, this]
  | o :: old, x :: X, h => by
    have ih := hasPrefix_append_delim d B old X (fun hm => h (List.mem_cons_of_mem _ hm))
    simp only [hasPrefix] at ih ⊢
    simp only [List.cons_append, List.isPrefixOf, List.append_eq, ih]

theorem hasPrefix_length {s old : Str} (h : hasPrefix s old = true) : old.length ≤ s.length := by
  simp only [hasPrefix, List.isPrefixOf_iff_prefix] at h
  exact h.length_le

/-- A replacement pass does not reach across a byte that is not in `old`. -/
theorem replaceScan_split (old new : Str) (d : Char) (B : Str) (hold : old ≠ [])
    (hd : d ∉ old) : ∀ (A : Str) (k : Nat), k ≤ A.length →
    replaceScan old new k (A ++ d :: B)
      = replaceScan old new k A ++ d :: replaceScan old new 0 B
  | [], k, hk => by
    have hk0 : k = 0 := by simpa using hk
    subst hk0
    have hp : hasPrefix (d :: B) old = false := by
      have := hasPrefix_append_delim d B old [] hd
      simp only [List.nil_append] at this
      rw [this]
      cases old with
      | nil => exact absurd rfl hold
      | cons o old => simp [hasPrefix, List.isPrefixOf]
    simp [replaceScan, hp]
  | a :: A, k + 1, hk => by
    simp only [List.cons_append, replaceScan, List.append_eq]
    exact replaceScan_split old new d B hold hd A k (by simpa using hk)
  | a :: A, 0, _ => by
    have hp := hasPrefix_append_delim d B old (a :: A) hd
    simp only [List.cons_append] at hp
    simp only [List.cons_append, replaceScan, List.append_eq, hp]
    by_cases h : hasPrefix (a :: A) old = true
    · simp only [h, if_true, List.append_assoc]
      have hlen := hasPrefix_length h
      simp only [List.length_cons] at hlen
      rw [replaceScan_split old new d B hold hd A (old.length - 1) (by omega)]
    · simp only [h, Bool.false_eq_true, if_false, List.cons_append]
      rw [replaceScan_split old new d B hold hd A 0 (Nat.zero_le _)]

theorem replaceAll_split (old new : Str) (d : Char) (A B : Str) (hold : old ≠ [])
    (hd : d ∉ old) :
    replaceAll (A ++ d :: B) old new = replaceAll A old new ++ d :: replaceAll B old new := by
  unfold replaceAll
  by_cases h : old = new
  · simp [h]
  · simp only [h, if_false, hold]
    exact replaceScan_split old new d B hold hd A 0 (Nat.zero_le _)

theorem replaceScan_absent (old new : Str) : ∀ (R : Str), ¬ old <:+: R →
    replaceScan old new 0 R = R
  | [], _ => rfl
  | c :: cs, h => by
    have hp : hasPrefix (c :: cs) old = false := by
      cases hq : hasPrefix (c :: cs) old with
      | false => rfl
      | true =>
        simp only [hasPrefix, List.isPrefixOf_iff_prefix] at hq
        exact absurd hq.isInfix h
    have ht : ¬ old <:+: cs := fun hi => h (hi.trans (List.suffix_cons c cs).isInfix)
    simp only [replaceScan, hp, Bool.false_eq_true, if_false, replaceScan_absent old new cs ht]

theorem replaceAll_absent (old new R : Str) (h : ¬ old <:+: R) : replaceAll R old new = R := by
  have hold : old ≠ [] := by
    rintro rfl
    exact h List.nil_infix
  unfold replaceAll
  by_cases h1 : old = new
  · simp [h1]
  · simp only [h1, if_false, hold]
    exact replaceScan_absent old new R h

theorem replaceAll_nil (old new : Str) (hold : old ≠ []) : replaceAll [] old new = [] := by
  unfold replaceAll
  by_cases h1 : old = new
  · simp [h1]
  · simp [h1, hold, replaceScan]

theorem rewriteLoop_split (m : GoMap) (d : Char) : ∀ (urls : List Str) (A B : Str),
    (∀ k ∈ urls, k ≠ [] ∧ d ∉ k) →
    rewriteLoop m urls (A ++ d :: B) = rewriteLoop m urls A ++ d :: rewriteLoop m urls B
  | [], A, B, _ => rfl
  | u :: urls, A, B, h => by
    have hu := h u (List.mem_cons_self _ _)
    simp only [rewriteLoop, List.foldl_cons]
    rw [replaceAll_split _ _ d A B hu.1 hu.2]
    exact rewriteLoop_split m d urls _ _ (fun k hk => h k (List.mem_cons_of_mem _ hk))

theorem rewriteLoop_absent (m : GoMap) : ∀ (urls : List Str) (R : Str),
    (∀ k ∈ urls, ¬ k <:+: R) → rewriteLoop m urls R = R
  | [], R, _ => rfl
  | u :: urls, R, h => by
    simp only [rewriteLoop, List.foldl_cons]
    rw [replaceAll_absent _ _ R (h u (List.mem_cons_self _ _))]
    exact rewriteLoop_absent m urls R (fun k hk => h k (List.mem_cons_of_mem _ hk))

theorem rewriteLoop_nil (m : GoMap) : ∀ (urls : List Str), (∀ k ∈ urls, k ≠ []) →
    rewriteLoop m urls [] = []
  | [], _ => rfl
  | u :: urls, h => by
    simp only [rewriteLoop, List.foldl_cons]
    rw [replaceAll_nil _ _ (h u (List.mem_cons_self _ _))]
    exact rewriteLoop_nil m urls (fun k hk => h k (List.mem_cons_of_mem _ hk))

/-- The frame of the rewriting loop: an occurrence of `R` that contains no key
and whose neighbouring bytes are in no key stays in place. -/
theorem rewriteLoop_frame (m : GoMap) (urls : List Str) (pre R post : Str)
    (hin : ∀ k ∈ urls, ¬ k <:+: R)
    (hpre : ∀ d, pre.getLast? = some d → ∀ k ∈ urls, d ∉ k)
    (hpost : ∀ d, post.head? = some d → ∀ k ∈ urls, d ∉ k) :
    rewriteLoop m urls (pre ++ R ++ post)
      = rewriteLoop m urls pre ++ R ++ rewriteLoop m urls post := by
  have hne : ∀ k ∈ urls, k ≠ [] := by
    rintro k hk rfl
    exact hin [] hk List.nil_infix
  have hright : rewriteLoop m urls (R ++ post) = R ++ rewriteLoop m urls post := by
    cases post with
    | nil => simp [rewriteLoop_nil m urls hne, rewriteLoop_absent m urls R hin]
    | cons d B =>
      have hd := hpost d rfl
      rw [rewriteLoop_split m d urls R B (fun k hk => ⟨hne k hk, hd k hk⟩),
        rewriteLoop_absent m urls R hin]
      have := rewriteLoop_split m d urls [] B (fun k hk => ⟨hne k hk, hd k hk⟩)
      simp only [List.nil_append, rewriteLoop_nil m urls hne] at this
      rw [this]
  rcases List.eq_nil_or_concat pre with rfl | ⟨A, d, rfl⟩
  · simp [rewriteLoop_nil m urls hne, hright]
  · have hd := hpre d (by simp)
    have h1 := rewriteLoop_split m d urls A (R ++ post) (fun k hk => ⟨hne k hk, hd k hk⟩)
    have h2 := rewriteLoop_split m d urls A [] (fun k hk => ⟨hne k hk, hd k hk⟩)
    simp only [rewriteLoop_nil m urls hne] at h2
    simp only [List.concat_eq_append, List.append_assoc, List.singleton_append,
      List.cons_append, List.nil_append] at hpre ⊢
    rw [h1, hright, h2]
    simp

/-- C5, amended: an occurrence of a string `R` in the document - in particular
of the raw URL of a candidate whose fetch failed on all variants, which added no
key of its own - is left in place, unchanged, in the output, the text before and
the text behind it being rewritten on their own, provided that no key of the
final association map occurs inside `R` and that the byte before and the byte
behind the occurrence, where there is one, occur in no key. -/
theorem failed_candidate_untouched (unescape : Str → Str) (dl : Download) (order : List Str)
    (pre R post : Str)
    (hperm : order.Perm (mapKeys (collect unescape dl (pre ++ R ++ post)).replacements))
    (hin : ∀ k ∈ mapKeys (collect unescape dl (pre ++ R ++ post)).replacements, ¬ k <:+: R)
    (hpre : ∀ d, pre.getLast? = some d →
      ∀ k ∈ mapKeys (collect unescape dl (pre ++ R ++ post)).replacements, d ∉ k)
    (hpost : ∀ d, post.head? = some d →
      ∀ k ∈ mapKeys (collect unescape dl (pre ++ R ++ post)).replacements, d ∉ k) :
    main unescape dl order (pre ++ R ++ post)
      = rewriteLoop (collect unescape dl (pre ++ R ++ post)).replacements (sortLoop order) pre
        ++ R ++
        rewriteLoop (collect unescape dl (pre ++ R ++ post)).replacements (sortLoop order)
          post := by
  have hmem : ∀ k, k ∈ sortLoop order →
      k ∈ mapKeys (collect unescape dl (pre ++ R ++ post)).replacements := fun k hk =>
    hperm.subset ((sortLoop_perm order).subset hk)
  unfold main
  exact rewriteLoop_frame _ _ pre R post (fun k hk => hin k (hmem k hk))
    (fun d hd k hk => hpre d hd k (hmem k hk)) (fun d hd k hk => hpost d hd k (hmem k hk))


set_option maxRecDepth 100000 in
/-- C5 amended, at a document with two images of which the first cannot be
fetched: the URL of the first stays where it is, between its quotes. -/
theorem failed_candidate_untouched_witness :
    main (unescapeString entityAmp) (downloadImage (onlyNet "https://cdn.discordapp.com/b.png".toList))
        ["https://cdn.discordapp.com/b.png".toList]
        ("<img src=\"".toList ++ "https://cdn.discordapp.com/a.png".toList
          ++ "\"> <img src=\"https://cdn.discordapp.com/b.png\">".toList)
      = "<img src=\"".toList ++ "https://cdn.discordapp.com/a.png".toList
          ++ "\"> <img src=\"static/5142b4cf71d0e0e7b4c98b840a502be5.png\">".toList := by
  have hkeys : mapKeys (collect (unescapeString entityAmp)
      (downloadImage (onlyNet "https://cdn.discordapp.com/b.png".toList))
      ("<img src=\"".toList ++ "https://cdn.discordapp.com/a.png".toList
        ++ "\"> <img src=\"https://cdn.discordapp.com/b.png\">".toList)).replacements
      = ["https://cdn.discordapp.com/b.png".toList] := by decide
  rw [failed_candidate_untouched (unescapeString entityAmp)
    (downloadImage (onlyNet "https://cdn.discordapp.com/b.png".toList))
    ["https://cdn.discordapp.com/b.png".toList]
    "<img src=\"".toList "https://cdn.discordapp.com/a.png".toList
    "\"> <img src=\"https://cdn.discordapp.com/b.png\">".toList
    (by rw [hkeys])
    (by rw [hkeys]; decide)
    (by rw [hkeys]; intro d hd; have hd2 : d = Char.ofNat 34 := by
          have : "<img src=\"".toList.getLast? = some (Char.ofNat 34) := by decide
          rw [this] at hd; exact (Option.some.inj hd).symm
        subst hd2; decide)
    (by rw [hkeys]; intro d hd; have hd2 : d = Char.ofNat 34 := by
          have : "\"> <img src=\"https://cdn.discordapp.com/b.png\">".toList.head?
            = some (Char.ofNat 34) := by decide
          rw [this] at hd; exact (Option.some.inj hd).symm
        subst hd2; decide)]
  decide

set_option maxRecDepth 100000 in
/-- C5 as stated fails at the document
`https://cdn.discordapp.com/a https://cdn.discordapp.com/a.png` when the first
URL can be fetched and the second cannot.  The only key is the first URL; it is
a prefix of the second, so the replacement made for the first candidate rewrites
the occurrence of the failed candidate as well: its raw URL occurs in the input
and no longer in the output. -/
theorem failed_candidate_counterexample :
    findAllString "https://cdn.discordapp.com/a https://cdn.discordapp.com/a.png".toList
        = ["https://cdn.discordapp.com/a".toList, "https://cdn.discordapp.com/a.png".toList] ∧
      (collect (unescapeString entityAmp)
          (downloadImage (onlyNet "https://cdn.discordapp.com/a".toList))
          "https://cdn.discordapp.com/a https://cdn.discordapp.com/a.png".toList).calls.map
          (fun c => (c.url, c.result.toBool))
        = [("https://cdn.discordapp.com/a".toList, true),
           ("https://cdn.discordapp.com/a.png".toList, false)] ∧
      mapKeys (collect (unescapeString entityAmp)
          (downloadImage (onlyNet "https://cdn.discordapp.com/a".toList))
          "https://cdn.discordapp.com/a https://cdn.discordapp.com/a.png".toList).replacements
        = ["https://cdn.discordapp.com/a".toList] ∧
      contains "https://cdn.discordapp.com/a https://cdn.discordapp.com/a.png".toList
          "https://cdn.discordapp.com/a.png".toList = true ∧
      main (unescapeString entityAmp)
          (downloadImage (onlyNet "https://cdn.discordapp.com/a".toList))
          ["https://cdn.discordapp.com/a".toList]
          "https://cdn.discordapp.com/a https://cdn.discordapp.com/a.png".toList
        = ("static/637405e01b9c2367e51bcd49475a1bed.png "
            ++ "static/637405e01b9c2367e51bcd49475a1bed.png.png").toList ∧
      contains (main (unescapeString entityAmp)
          (downloadImage (onlyNet "https://cdn.discordapp.com/a".toList))
          ["https://cdn.discordapp.com/a".toList]
          "https://cdn.discordapp.com/a https://cdn.discordapp.com/a.png".toList)
          "https://cdn.discordapp.com/a.png".toList = false := by
  decide

/-! ## The rewriter with provenance -/

theorem erase_inserted (s : Str) : erase (inserted s) = s := by
  simp [erase, inserted, List.map_map, Function.comp_def]

theorem erase_fresh (s : Str) : erase (fresh s) = s := by
  simp [erase, fresh, List.map_map, Function.comp_def]

theorem erase_append (a b : MStr) : erase (a ++ b) = erase a ++ erase b := by
  simp [erase]

theorem erase_insertAtRunesM (new : Str) : ∀ (b : MStr) (k : Nat),
    erase (insertAtRunesM new k b) = insertAtRunes new k (erase b)
  | [], k => by cases k <;> rfl
  | c :: cs, 0 => by
    have ih0 := erase_insertAtRunesM new cs 0
    have ih1 := erase_insertAtRunesM new cs (runeLen (erase (c :: cs)) - 1)
    simp only [insertAtRunesM]
    split
    · rename_i h
      have : erase (c :: cs) = c.1 :: erase cs := rfl
      simp only [this] at h ih1
      simp only [erase, List.map_cons, List.map_append] at ih0 ⊢
      simp only [insertAtRunes]
      rw [if_pos (by simpa [erase] using h)]
      have hi := erase_inserted new
      simp only [erase] at hi
      rw [hi, ih0]
    · rename_i h
      have : erase (c :: cs) = c.1 :: erase cs := rfl
      simp only [this] at h ih1
      simp only [erase, List.map_cons] at ih1 ⊢
      simp only [insertAtRunes]
      rw [if_neg (by simpa [erase] using h), ih1]
  | c :: cs, k + 1 => by
    have ih0 := erase_insertAtRunesM new cs 0
    have ihk := erase_insertAtRunesM new cs k
    have hi := erase_inserted new
    simp only [erase] at hi ih0 ihk
    simp only [insertAtRunesM, insertAtRunes, erase, List.map_cons]
    split
    · simp only [List.map_cons, List.map_append, hi, ih0]
    · simp only [List.map_cons, ihk]

theorem erase_replaceScanM (old new : Str) : ∀ (b : MStr) (k : Nat),
    erase (replaceScanM old new k b) = replaceScan old new k (erase b)
  | [], k => by cases k <;> rfl
  | c :: cs, k + 1 => by
    simp only [replaceScanM, erase, List.map_cons, replaceScan]
    exact erase_replaceScanM old new cs k
  | c :: cs, 0 => by
    have ih0 := erase_replaceScanM old new cs 0
    have ih1 := erase_replaceScanM old new cs (old.length - 1)
    have hi := erase_inserted new
    simp only [erase] at hi ih0 ih1
    simp only [replaceScanM, erase, List.map_cons, replaceScan]
    split
    · simp only [List.map_append, hi, ih1]
    · simp only [List.map_cons, ih0]

/-- Forgetting the flags turns the flagged pass into `strings.ReplaceAll`. -/
theorem erase_replaceAllM (b : MStr) (old new : Str) :
    erase (replaceAllM b old new) = replaceAll (erase b) old new := by
  unfold replaceAllM replaceAll
  split
  · rfl
  · split
    · rw [erase_append, erase_inserted, erase_insertAtRunesM]
    · exact erase_replaceScanM old new b 0

theorem erase_rewriteLoopM (m : GoMap) : ∀ (urls : List Str) (b : MStr),
    erase (rewriteLoopM m urls b) = rewriteLoop m urls (erase b)
  | [], _ => rfl
  | u :: urls, b => by
    simp only [rewriteLoopM, rewriteLoop, List.foldl_cons]
    have := erase_rewriteLoopM m urls (replaceAllM b u ((mapGet m u).getD []))
    simp only [rewriteLoopM, rewriteLoop] at this
    rw [this, erase_replaceAllM]

/-- Forgetting the flags of the flagged run gives the document `main` writes. -/
theorem erase_mainMarked (unescape : Str → Str) (dl : Download) (order : List Str)
    (content : Str) :
    erase (mainMarked unescape dl order content) = main unescape dl order content := by
  unfold mainMarked main
  rw [erase_rewriteLoopM, erase_fresh]

/-- Text without a written byte does not start inside written text. -/
theorem infix_after_inserted (u R : MStr) (hu : ∀ x ∈ u, x.2 = false) (hne : u ≠ []) :
    ∀ (M : MStr), (∀ x ∈ M, x.2 = true) → u <:+: M ++ R → u <:+: R
  | [], _, h => by simpa using h
  | x :: M, hM, h => by
    rw [List.cons_append, List.infix_cons_iff] at h
    rcases h with h | h
    · cases u with
      | nil => exact absurd rfl hne
      | cons y u =>
        have hy : y = x := (List.cons_prefix_cons.1 h).1
        have h1 := hu y (List.mem_cons_self _ _)
        have h2 := hM x (List.mem_cons_self _ _)
        rw [hy, h2] at h1
        exact absurd h1 (by decide)
    · exact infix_after_inserted u R hu hne M (fun z hz => hM z (List.mem_cons_of_mem _ hz)) h

theorem inserted_flags (s : Str) : ∀ x ∈ inserted s, x.2 = true := by
  intro x hx
  simp only [inserted, List.mem_map] at hx
  obtain ⟨c, -, rfl⟩ := hx
  rfl

theorem fresh_flags (s : Str) : ∀ x ∈ fresh s, x.2 = false := by
  intro x hx
  simp only [fresh, List.mem_map] at hx
  obtain ⟨c, -, rfl⟩ := hx
  rfl

theorem prefix_inserted_append (u R : MStr) (new : Str) (hu : ∀ x ∈ u, x.2 = false)
    (hnew : new ≠ []) (h : u <+: inserted new ++ R) : u = [] := by
  cases u with
  | nil => rfl
  | cons y u =>
    cases new with
    | nil => exact absurd rfl hnew
    | cons n new =>
      simp only [inserted, List.map_cons, List.cons_append] at h
      have hy : y = (n, true) := (List.cons_prefix_cons.1 h).1
      have h1 := hu y (List.mem_cons_self _ _)
      rw [hy] at h1
      exact Bool.noConfusion h1

/-- A prefix of the result of a pass that holds no written byte is a prefix of
the buffer the pass started from. -/
theorem prefix_replaceScanM (old new : Str) (hnew : new ≠ []) : ∀ (b u : MStr),
    (∀ x ∈ u, x.2 = false) → u <+: replaceScanM old new 0 b → u <+: b
  | [], u, _, h => by simpa [replaceScanM] using h
  | c :: cs, u, hu, h => by
    simp only [replaceScanM] at h
    split at h
    · rw [prefix_inserted_append u _ new hu hnew h]
      exact List.nil_prefix
    · cases u with
      | nil => exact List.nil_prefix
      | cons y u =>
        obtain ⟨hy, ht⟩ := List.cons_prefix_cons.1 h
        subst hy
        exact List.cons_prefix_cons.2 ⟨rfl,
          prefix_replaceScanM old new hnew cs u (fun x hx => hu x (List.mem_cons_of_mem _ hx)) ht⟩

/-- Text without a written byte that occurs after a pass occurred before it. -/
theorem infix_replaceScanM (old new : Str) (hnew : new ≠ []) (u : MStr)
    (hu : ∀ x ∈ u, x.2 = false) (hne : u ≠ []) : ∀ (b : MStr) (k : Nat),
    u <:+: replaceScanM old new k b → u <:+: b
  | [], k, h => by
    have : replaceScanM old new k [] = [] := by cases k <;> rfl
    rwa [this] at h
  | c :: cs, k + 1, h => by
    simp only [replaceScanM] at h
    exact (infix_replaceScanM old new hnew u hu hne cs k h).trans (List.suffix_cons c cs).isInfix
  | c :: cs, 0, h => by
    by_cases hp : hasPrefix (erase (c :: cs)) old = true
    · simp only [replaceScanM, hp, if_true] at h
      have h2 := infix_after_inserted u _ hu hne (inserted new) (inserted_flags new) h
      exact (infix_replaceScanM old new hnew u hu hne cs _ h2).trans
        (List.suffix_cons c cs).isInfix
    · have hsame : replaceScanM old new 0 (c :: cs) = c :: replaceScanM old new 0 cs := by
        simp only [replaceScanM, hp, Bool.false_eq_true, if_false]
      rw [hsame, List.infix_cons_iff] at h
      rcases h with h | h
      · rw [← hsame] at h
        exact (prefix_replaceScanM old new hnew (c :: cs) u hu h).isInfix
      · exact (infix_replaceScanM old new hnew u hu hne cs 0 h).trans
          (List.suffix_cons c cs).isInfix

/-- After the pass for `old` no instance of `old` is left that consists of
bytes of the document only. -/
theorem fresh_not_infix_replaceScanM (old new : Str) (hnew : new ≠ []) (hold : old ≠ []) :
    ∀ (b : MStr) (k : Nat), ¬ fresh old <:+: replaceScanM old new k b
  | [], k, h => by
    have : replaceScanM old new k [] = [] := by cases k <;> rfl
    rw [this] at h
    have := List.eq_nil_of_infix_nil h
    simp only [fresh, List.map_eq_nil_iff] at this
    exact hold this
  | c :: cs, k + 1, h => by
    simp only [replaceScanM] at h
    exact fresh_not_infix_replaceScanM old new hnew hold cs k h
  | c :: cs, 0, h => by
    have hfne : fresh old ≠ [] := by simpa [fresh] using hold
    by_cases hp : hasPrefix (erase (c :: cs)) old = true
    · simp only [replaceScanM, hp, if_true] at h
      have h2 := infix_after_inserted (fresh old) _ (fresh_flags old) hfne (inserted new)
        (inserted_flags new) h
      exact fresh_not_infix_replaceScanM old new hnew hold cs _ h2
    · have hsame : replaceScanM old new 0 (c :: cs) = c :: replaceScanM old new 0 cs := by
        simp only [replaceScanM, hp, Bool.false_eq_true, if_false]
      rw [hsame, List.infix_cons_iff] at h
      rcases h with h | h
      · rw [← hsame] at h
        have h3 := prefix_replaceScanM old new hnew (c :: cs) (fresh old) (fresh_flags old) h
        apply hp
        have h4 : erase (fresh old) <+: erase (c :: cs) := by
          obtain ⟨t, ht⟩ := h3
          exact ⟨erase t, by rw [← erase_append, ht]⟩
        rw [erase_fresh] at h4
        simpa [hasPrefix, List.isPrefixOf_iff_prefix] using h4
      · exact fresh_not_infix_replaceScanM old new hnew hold cs 0 h


theorem prefix_cons_inserted (u rest cs : MStr) (c : Char × Bool) (new : Str)
    (hu : ∀ x ∈ u, x.2 = false) (hnew : new ≠ [])
    (h : u <+: c :: (inserted new ++ rest)) : u <+: c :: cs := by
  cases u with
  | nil => exact List.nil_prefix
  | cons y u =>
    obtain ⟨hy, ht⟩ := List.cons_prefix_cons.1 h
    subst hy
    rw [prefix_inserted_append u rest new (fun x hx => hu x (List.mem_cons_of_mem _ hx)) hnew ht]
    exact List.cons_prefix_cons.2 ⟨rfl, List.nil_prefix⟩

theorem prefix_insertAtRunesM (new : Str) (hnew : new ≠ []) : ∀ (b u : MStr) (k : Nat),
    (∀ x ∈ u, x.2 = false) → u <+: insertAtRunesM new k b → u <+: b
  | [], u, k, _, h => by
    have : insertAtRunesM new k [] = [] := by cases k <;> rfl
    rwa [this] at h
  | c :: cs, u, 0, hu, h => by
    simp only [insertAtRunesM] at h
    split at h
    · exact prefix_cons_inserted u _ cs c new hu hnew h
    · cases u with
      | nil => exact List.nil_prefix
      | cons y u =>
        obtain ⟨hy, ht⟩ := List.cons_prefix_cons.1 h
        subst hy
        exact List.cons_prefix_cons.2 ⟨rfl, prefix_insertAtRunesM new hnew cs u _
          (fun x hx => hu x (List.mem_cons_of_mem _ hx)) ht⟩
  | c :: cs, u, k + 1, hu, h => by
    simp only [insertAtRunesM] at h
    split at h
    · exact prefix_cons_inserted u _ cs c new hu hnew h
    · cases u with
      | nil => exact List.nil_prefix
      | cons y u =>
        obtain ⟨hy, ht⟩ := List.cons_prefix_cons.1 h
        subst hy
        exact List.cons_prefix_cons.2 ⟨rfl, prefix_insertAtRunesM new hnew cs u _
          (fun x hx => hu x (List.mem_cons_of_mem _ hx)) ht⟩

theorem infix_insertAtRunesM (new : Str) (hnew : new ≠ []) (u : MStr)
    (hu : ∀ x ∈ u, x.2 = false) (hne : u ≠ []) : ∀ (b : MStr) (k : Nat),
    u <:+: insertAtRunesM new k b → u <:+: b
  | [], k, h => by
    have : insertAtRunesM new k [] = [] := by cases k <;> rfl
    rwa [this] at h
  | c :: cs, k, h => by
    have hshape : insertAtRunesM new k (c :: cs) = c :: (inserted new ++ insertAtRunesM new 0 cs)
        ∨ ∃ j, insertAtRunesM new k (c :: cs) = c :: insertAtRunesM new j cs := by
      cases k with
      | zero =>
        simp only [insertAtRunesM]
        split
        · exact Or.inl rfl
        · exact Or.inr ⟨_, rfl⟩
      | succ k =>
        simp only [insertAtRunesM]
        split
        · exact Or.inl rfl
        · exact Or.inr ⟨_, rfl⟩
    have h0 := h
    rcases hshape with hs | ⟨j, hs⟩
    · rw [hs, List.infix_cons_iff] at h
      rcases h with h | h
      · exact (prefix_cons_inserted u _ cs c new hu hnew h).isInfix
      · have h2 := infix_after_inserted u _ hu hne (inserted new) (inserted_flags new) h
        exact (infix_insertAtRunesM new hnew u hu hne cs 0 h2).trans
          (List.suffix_cons c cs).isInfix
    · rw [hs, List.infix_cons_iff] at h
      rcases h with h | h
      · rw [← hs] at h
        exact (prefix_insertAtRunesM new hnew (c :: cs) u k hu h).isInfix
      · exact (infix_insertAtRunesM new hnew u hu hne cs j h).trans
          (List.suffix_cons c cs).isInfix

/-- A pass that writes a non-empty local path creates no instance of a string
that consists of bytes of the document only. -/
theorem infix_replaceAllM (b u : MStr) (old new : Str) (hnew : new ≠ [])
    (hu : ∀ x ∈ u, x.2 = false) (hne : u ≠ []) (h : u <:+: replaceAllM b old new) :
    u <:+: b := by
  unfold replaceAllM at h
  split at h
  · exact h
  · split at h
    · exact infix_insertAtRunesM new hnew u hu hne b 0
        (infix_after_inserted u _ hu hne (inserted new) (inserted_flags new) h)
    · exact infix_replaceScanM old new hnew u hu hne b 0 h

/-- The pass for a non-empty key that differs from its local path leaves no
instance of the key that consists of bytes of the document only. -/
theorem fresh_not_infix_replaceAllM (b : MStr) (old new : Str) (hnew : new ≠ [])
    (hold : old ≠ []) (hdiff : old ≠ new) : ¬ fresh old <:+: replaceAllM b old new := by
  unfold replaceAllM
  simp only [hdiff, if_false, hold]
  exact fresh_not_infix_replaceScanM old new hnew hold b 0

theorem rewriteLoopM_preserves (m : GoMap) (v : Str) (hv : v ≠ []) :
    ∀ (urls : List Str) (b : MStr), (∀ k ∈ urls, (mapGet m k).getD [] ≠ []) →
    ¬ fresh v <:+: b → ¬ fresh v <:+: rewriteLoopM m urls b
  | [], _, _, h => h
  | u :: urls, b, hval, h => by
    simp only [rewriteLoopM, List.foldl_cons]
    apply rewriteLoopM_preserves m v hv urls _ (fun k hk => hval k (List.mem_cons_of_mem _ hk))
    intro hc
    exact h (infix_replaceAllM b (fresh v) u _ (hval u (List.mem_cons_self _ _))
      (fresh_flags v) (by simpa [fresh] using hv) hc)

/-- After the rewriting loop over a list of keys that holds `v`, no instance of
`v` is left that consists of bytes of the document only. -/
theorem rewriteLoopM_removes (m : GoMap) (v : Str) (hv : v ≠ [])
    (hvv : (mapGet m v).getD [] ≠ v) :
    ∀ (urls : List Str) (b : MStr), (∀ k ∈ urls, (mapGet m k).getD [] ≠ []) → v ∈ urls →
    ¬ fresh v <:+: rewriteLoopM m urls b
  | [], _, _, hmem => by simp at hmem
  | u :: urls, b, hval, hmem => by
    by_cases huv : u = v
    · subst huv
      simp only [rewriteLoopM, List.foldl_cons]
      apply rewriteLoopM_preserves m u hv urls _
        (fun k hk => hval k (List.mem_cons_of_mem _ hk))
      exact fresh_not_infix_replaceAllM b u _ (hval u (List.mem_cons_self _ _)) hv
        (fun e => hvv e.symm)
    · have hmem2 : v ∈ urls := by
        rcases List.mem_cons.1 hmem with h | h
        · exact absurd h.symm huv
        · exact h
      simp only [rewriteLoopM, List.foldl_cons]
      exact rewriteLoopM_removes m v hv hvv urls _
        (fun k hk => hval k (List.mem_cons_of_mem _ hk)) hmem2

/-! ## The association map during the candidate loop -/

theorem mapGet_mapSet (k v x : Str) : ∀ (m : GoMap),
    mapGet (mapSet m k v) x = if x = k then some v else mapGet m x
  | [] => by
    by_cases h : x = k
    · simp [mapSet, mapGet, h]
    · have : ¬ k = x := fun e => h e.symm
      simp [mapSet, mapGet, h, this]
  | (k0, v0) :: rest => by
    have ih := mapGet_mapSet k v x rest
    simp only [mapGet] at ih
    by_cases h0 : k0 = k
    · subst h0
      by_cases h : x = k0
      · simp [mapSet, mapGet, h]
      · have : ¬ k0 = x := fun e => h e.symm
        simp [mapSet, mapGet, h, this, List.find?]
    · by_cases h : x = k
      · subst h
        simp only [mapSet, if_neg h0, mapGet, List.find?, decide_eq_true_eq, h0, decide_False,
          if_true]
        simpa using ih
      · by_cases h1 : k0 = x
        · simp [mapSet, mapGet, h0, h, h1, List.find?]
        · simp only [mapSet, if_neg h0, mapGet, List.find?, h1, decide_False, if_neg h]
          simpa [h] using ih

theorem mapGet_isSome_iff (x : Str) : ∀ (m : GoMap), (mapGet m x).isSome ↔ x ∈ mapKeys m
  | [] => by simp [mapGet, mapKeys]
  | (k0, v0) :: rest => by
    have ih := mapGet_isSome_iff x rest
    simp only [mapGet, mapKeys] at ih
    by_cases h : k0 = x
    · simp [mapGet, mapKeys, h, List.find?]
    · have h2 : ¬ x = k0 := fun e => h e.symm
      simp only [mapGet, mapKeys, List.find?, h, decide_False, List.map_cons, List.mem_cons, h2,
        false_or]
      exact ih

/-- The three assignments after a successful fetch, read back. -/
theorem mapGet_recordVariants (m : GoMap) (raw cleaned decoded path x : Str) :
    mapGet (recordVariants m raw cleaned decoded path) x
      = if x = raw ∨ x = cleaned ∨ x = decoded then some path else mapGet m x := by
  unfold recordVariants
  by_cases h1 : cleaned = raw <;> by_cases h2 : decoded = cleaned <;>
    by_cases hx1 : x = raw <;> by_cases hx2 : x = cleaned <;> by_cases hx3 : x = decoded <;>
    simp_all [mapGet_mapSet]

/-- An iteration of the candidate loop leaves the map alone or makes the three
assignments for a local path. -/
theorem processCandidate_cases (unescape : Str → Str) (dl : Download) (st : LoopState)
    (raw : Str) :
    (processCandidate unescape dl st raw).replacements = st.replacements ∨
      ∃ f, (processCandidate unescape dl st raw).replacements
        = recordVariants st.replacements raw (cleanedOf raw) (decodedOf unescape raw)
            ("static/".toList ++ f) := by
  unfold processCandidate decodedOf
  split
  · exact Or.inl rfl
  · cases hres : tryDownloadWithVariants dl st.calls (unescape (cleanedOf raw)) with
    | mk r c =>
      cases r with
      | error e => left; simp only [hres]
      | ok f => right; exact ⟨f, by simp only [hres]⟩

theorem processCandidate_ok (unescape : Str → Str) (dl : Download) (st : LoopState)
    (raw f : Str) (hnew : mapGet st.replacements raw = none)
    (hok : (tryDownloadWithVariants dl st.calls (decodedOf unescape raw)).1 = .ok f) :
    (processCandidate unescape dl st raw).replacements
      = recordVariants st.replacements raw (cleanedOf raw) (decodedOf unescape raw)
          ("static/".toList ++ f) := by
  unfold decodedOf at hok
  unfold processCandidate decodedOf
  rw [if_neg (by simp [hnew])]
  cases hres : tryDownloadWithVariants dl st.calls (unescape (cleanedOf raw)) with
  | mk r c =>
    rw [hres] at hok
    simp only at hok
    subst hok
    simp only [hres]

/-- Keys are never removed, and every value is a path under `static/`. -/
theorem candidateLoop_invariant (unescape : Str → Str) (dl : Download) :
    ∀ (found : List Str) (st : LoopState),
    (∀ x, (mapGet st.replacements x).isSome →
      (mapGet (candidateLoop unescape dl st found).replacements x).isSome) ∧
    ((∀ x p, mapGet st.replacements x = some p → ∃ f, p = "static/".toList ++ f) →
      ∀ x p, mapGet (candidateLoop unescape dl st found).replacements x = some p →
        ∃ f, p = "static/".toList ++ f)
  | [], st => ⟨fun _ h => h, fun h => h⟩
  | raw :: found, st => by
    obtain ⟨ih1, ih2⟩ := candidateLoop_invariant unescape dl found
      (processCandidate unescape dl st raw)
    have hstep := processCandidate_cases unescape dl st raw
    simp only [candidateLoop, List.foldl_cons] at ih1 ih2 ⊢
    constructor
    · intro x hx
      apply ih1
      rcases hstep with h | ⟨f, h⟩
      · rw [h]; exact hx
      · rw [h, mapGet_recordVariants]
        split
        · rfl
        · exact hx
    · intro hval
      apply ih2
      intro x p hp
      rcases hstep with h | ⟨f, h⟩
      · rw [h] at hp; exact hval x p hp
      · rw [h, mapGet_recordVariants] at hp
        split at hp
        · exact ⟨f, (Option.some.inj hp).symm⟩
        · exact hval x p hp

theorem candidateLoop_append (unescape : Str → Str) (dl : Download) (st : LoopState)
    (a b : List Str) :
    candidateLoop unescape dl st (a ++ b)
      = candidateLoop unescape dl (candidateLoop unescape dl st a) b := by
  simp [candidateLoop, List.foldl_append]

/-- The variants of a candidate that was fetched are keys when the loop ends,
and every value of the map is a path under `static/`. -/
theorem variants_are_keys (unescape : Str → Str) (dl : Download) (before after : List Str)
    (raw f : Str)
    (hnew : mapGet (candidateLoop unescape dl ⟨[], []⟩ before).replacements raw = none)
    (hok : (tryDownloadWithVariants dl (candidateLoop unescape dl ⟨[], []⟩ before).calls
      (decodedOf unescape raw)).1 = .ok f) :
    (∀ v ∈ [raw, cleanedOf raw, decodedOf unescape raw],
      v ∈ mapKeys (candidateLoop unescape dl ⟨[], []⟩ (before ++ raw :: after)).replacements) ∧
    ∀ x p, mapGet (candidateLoop unescape dl ⟨[], []⟩ (before ++ raw :: after)).replacements x
      = some p → ∃ f, p = "static/".toList ++ f := by
  constructor
  · intro v hv
    rw [candidateLoop_append, ← mapGet_isSome_iff]
    have hstep := processCandidate_ok unescape dl _ raw f hnew hok
    have hrest := (candidateLoop_invariant unescape dl after
      (processCandidate unescape dl (candidateLoop unescape dl ⟨[], []⟩ before) raw)).1 v
    have hcons : candidateLoop unescape dl (candidateLoop unescape dl ⟨[], []⟩ before)
        (raw :: after) = candidateLoop unescape dl (processCandidate unescape dl
          (candidateLoop unescape dl ⟨[], []⟩ before) raw) after := rfl
    rw [hcons]
    apply hrest
    rw [hstep, mapGet_recordVariants]
    simp only [List.mem_cons, List.mem_singleton, List.not_mem_nil, or_false] at hv
    rw [if_pos hv]
    rfl
  · exact (candidateLoop_invariant unescape dl (before ++ raw :: after) ⟨[], []⟩).2
      (fun x p hp => by simp [mapGet] at hp)

/-! ## The shape of keys -/

theorem findAllAux_prefix : ∀ (s : Str) (k : Nat), ∀ m ∈ findAllAux k s,
    ∃ run, run ≠ [] ∧ m = cdnPrefix ++ run
  | [], k, m, h => by cases k <;> simp [findAllAux] at h
  | c :: cs, k + 1, m, h => by
    simp only [findAllAux] at h
    exact findAllAux_prefix cs k m h
  | c :: cs, 0, m, h => by
    simp only [findAllAux] at h
    cases hm : matchAt (c :: cs) with
    | none =>
      rw [hm] at h
      exact findAllAux_prefix cs 0 m h
    | some m0 =>
      rw [hm] at h
      rcases List.mem_cons.1 h with h | h
      · subst h
        unfold matchAt at hm
        split at hm
        · dsimp only at hm
          split at hm
          · cases hm
          · rename_i hrun
            exact ⟨_, hrun, (Option.some.inj hm).symm⟩
        · cases hm
      · exact findAllAux_prefix cs _ m h

/-- Every match of the extractor starts with the byte `h` of `https`. -/
theorem findAllString_head (content m : Str) (h : m ∈ findAllString content) :
    m.head? = some 'h' := by
  obtain ⟨run, -, rfl⟩ := findAllAux_prefix content 0 m h
  rfl

theorem extractCompleteURL_head (s : Str) : (extractCompleteURL s).head? = s.head? := by
  obtain ⟨-, h2, -⟩ := earliest_fold s htmlTerminators s.length
  unfold extractCompleteURL
  simp only
  split
  · rename_i hlt
    rcases h2 with h2 | ⟨_, _, _, hpos⟩
    · omega
    · cases s with
      | nil => simp
      | cons c cs =>
        obtain ⟨n, hn⟩ : ∃ n, List.foldl (earliestStep (c :: cs)) (c :: cs).length htmlTerminators
            = n + 1 := ⟨_, (Nat.succ_pred_eq_of_pos hpos).symm⟩
        rw [hn]
        rfl
  · rfl

theorem cleanedOf_head (raw : Str) (c : Char) (hc : c ≠ '&') (h : raw.head? = some c) :
    (cleanedOf raw).head? = some c := by
  have h1 : (extractCompleteURL raw).head? = some c := by rw [extractCompleteURL_head, h]
  unfold cleanedOf
  simp only
  split
  · rename_i hs
    simp only [hasSuffix, List.isSuffixOf_iff_suffix] at hs
    obtain ⟨t, ht⟩ := hs
    rw [← ht] at h1 ⊢
    cases t with
    | nil =>
      simp only [List.nil_append] at h1
      exact absurd (Option.some.inj h1).symm hc
    | cons a t =>
      simp only [List.cons_append, List.head?_cons] at h1
      simp [h1]
  · exact h1

theorem unescapeString_head (entity : Str → Str × Nat) (s : Str) (c : Char) (hc : c ≠ '&')
    (h : s.head? = some c) : (unescapeString entity s).head? = some c := by
  cases s with
  | nil => simp at h
  | cons a s =>
    simp only [List.head?_cons, Option.some.injEq] at h
    subst h
    simp [unescapeString, unescapeAux, hc]

/-- The variants of a match of the extractor start with the byte `h`. -/
theorem variants_head (entity : Str → Str × Nat) (content raw : Str)
    (h : raw ∈ findAllString content) :
    ∀ v ∈ [raw, cleanedOf raw, decodedOf (unescapeString entity) raw], v.head? = some 'h' := by
  have h0 := findAllString_head content raw h
  have h1 := cleanedOf_head raw 'h' (by decide) h0
  have h2 := unescapeString_head entity (cleanedOf raw) 'h' (by decide) h1
  intro v hv
  simp only [List.mem_cons, List.mem_singleton, List.not_mem_nil, or_false] at hv
  rcases hv with rfl | rfl | rfl
  · exact h0
  · exact h1
  · exact h2

/-! ## No variant is left in the text of the document -/

/-- C9, amended: after a run in which a candidate was fetched successfully,
every occurrence of one of its variant strings (raw match, trimmed form, decoded
form) in the output contains at least one byte written by a replacement: in the
run with provenance, whose bytes are those of the output of `main`, no variant
occurs as a stretch of bytes of the original document.  What can remain is an
occurrence formed where an inserted local path meets the text around it. -/
theorem variants_gone_from_document_text (entity : Str → Str × Nat) (dl : Download)
    (order : List Str) (content : Str) (before after : List Str) (raw f : Str)
    (hperm : order.Perm
      (mapKeys (collect (unescapeString entity) dl content).replacements))
    (hfound : findAllString content = before ++ raw :: after)
    (hnew : mapGet (candidateLoop (unescapeString entity) dl ⟨[], []⟩ before).replacements raw
      = none)
    (hok : (tryDownloadWithVariants dl
      (candidateLoop (unescapeString entity) dl ⟨[], []⟩ before).calls
      (decodedOf (unescapeString entity) raw)).1 = .ok f) :
    erase (mainMarked (unescapeString entity) dl order content)
        = main (unescapeString entity) dl order content ∧
      ∀ v ∈ [raw, cleanedOf raw, decodedOf (unescapeString entity) raw],
        ¬ fresh v <:+: mainMarked (unescapeString entity) dl order content := by
  refine ⟨erase_mainMarked _ _ _ _, ?_⟩
  intro v hv
  obtain ⟨hkeys, hvals⟩ := variants_are_keys (unescapeString entity) dl before after raw f
    hnew hok
  have hcollect : collect (unescapeString entity) dl content
      = candidateLoop (unescapeString entity) dl ⟨[], []⟩ (before ++ raw :: after) := by
    unfold collect; rw [hfound]
  rw [← hcollect] at hkeys hvals
  have hraw : raw ∈ findAllString content := by rw [hfound]; simp
  have hhead := variants_head entity content raw hraw v hv
  have hvne : v ≠ [] := by
    rintro rfl
    simp at hhead
  have hvalue : ∀ k ∈ mapKeys (collect (unescapeString entity) dl content).replacements,
      ∃ g, (mapGet (collect (unescapeString entity) dl content).replacements k).getD []
        = "static/".toList ++ g := by
    intro k hk
    rw [← mapGet_isSome_iff] at hk
    obtain ⟨p, hp⟩ := Option.isSome_iff_exists.1 hk
    obtain ⟨g, hg⟩ := hvals k p hp
    exact ⟨g, by rw [hp, hg]; rfl⟩
  have hsorted : ∀ k ∈ sortLoop order,
      k ∈ mapKeys (collect (unescapeString entity) dl content).replacements := fun k hk =>
    hperm.subset ((sortLoop_perm order).subset hk)
  unfold mainMarked
  apply rewriteLoopM_removes _ v hvne
  · obtain ⟨g, hg⟩ := hvalue v (hkeys v hv)
    rw [hg]
    intro e
    rw [← e] at hhead
    simp at hhead
  · intro k hk
    obtain ⟨g, hg⟩ := hvalue k (hsorted k hk)
    rw [hg]
    simp
  · exact (sortLoop_perm order).symm.subset (hperm.symm.subset (hkeys v hv))


set_option maxRecDepth 100000 in
/-- C9 amended, at the document
`<img src="https://cdn.discordapp.com/attachments/1/2/pic.png?ex=AA&amp;hm=BB">`
with a fetch that succeeds: neither the raw match nor the decoded URL is left in
the text of the document. -/
theorem variants_gone_from_document_text_witness :
    erase (mainMarked (unescapeString entityAmp) (downloadImage pngNet)
        ["https://cdn.discordapp.com/attachments/1/2/pic.png?ex=AA&amp;hm=BB".toList,
         "https://cdn.discordapp.com/attachments/1/2/pic.png?ex=AA&hm=BB".toList]
        "<img src=\"https://cdn.discordapp.com/attachments/1/2/pic.png?ex=AA&amp;hm=BB\">".toList)
      = main (unescapeString entityAmp) (downloadImage pngNet)
        ["https://cdn.discordapp.com/attachments/1/2/pic.png?ex=AA&amp;hm=BB".toList,
         "https://cdn.discordapp.com/attachments/1/2/pic.png?ex=AA&hm=BB".toList]
        "<img src=\"https://cdn.discordapp.com/attachments/1/2/pic.png?ex=AA&amp;hm=BB\">".toList ∧
    ∀ v ∈ ["https://cdn.discordapp.com/attachments/1/2/pic.png?ex=AA&amp;hm=BB".toList,
        cleanedOf "https://cdn.discordapp.com/attachments/1/2/pic.png?ex=AA&amp;hm=BB".toList,
        decodedOf (unescapeString entityAmp)
          "https://cdn.discordapp.com/attachments/1/2/pic.png?ex=AA&amp;hm=BB".toList],
      ¬ fresh v <:+: mainMarked (unescapeString entityAmp) (downloadImage pngNet)
        ["https://cdn.discordapp.com/attachments/1/2/pic.png?ex=AA&amp;hm=BB".toList,
         "https://cdn.discordapp.com/attachments/1/2/pic.png?ex=AA&hm=BB".toList]
        "<img src=\"https://cdn.discordapp.com/attachments/1/2/pic.png?ex=AA&amp;hm=BB\">".toList :=
  variants_gone_from_document_text entityAmp (downloadImage pngNet) _
    "<img src=\"https://cdn.discordapp.com/attachments/1/2/pic.png?ex=AA&amp;hm=BB\">".toList
    [] [] "https://cdn.discordapp.com/attachments/1/2/pic.png?ex=AA&amp;hm=BB".toList
    "46fcb1faa208fdd61c2a8e3f5d6a31a9.png".toList
    (by
      have h : mapKeys (collect (unescapeString entityAmp) (downloadImage pngNet)
          "<img src=\"https://cdn.discordapp.com/attachments/1/2/pic.png?ex=AA&amp;hm=BB\">".toList).replacements
          = ["https://cdn.discordapp.com/attachments/1/2/pic.png?ex=AA&amp;hm=BB".toList,
             "https://cdn.discordapp.com/attachments/1/2/pic.png?ex=AA&hm=BB".toList] := by
        decide
      rw [h])
    (by decide) (by decide) (by rfl)

set_option maxRecDepth 100000 in
/-- C9 as stated fails at the document
`https://cdn.discordapp.com/s https://cdn.discordapp.com/https://cdn.discordapp.com/s`
when the first URL can be fetched and the second cannot.  The first candidate is
fetched and its URL is the only key.  Replacing it inside the second match puts
`static/...` behind `https://cdn.discordapp.com/`, and the key
`https://cdn.discordapp.com/s` occurs in the output again. -/
theorem variant_remains_counterexample :
    findAllString
        "https://cdn.discordapp.com/s https://cdn.discordapp.com/https://cdn.discordapp.com/s".toList
      = ["https://cdn.discordapp.com/s".toList,
         "https://cdn.discordapp.com/https://cdn.discordapp.com/s".toList] ∧
    (collect (unescapeString entityAmp)
        (downloadImage (onlyNet "https://cdn.discordapp.com/s".toList))
        "https://cdn.discordapp.com/s https://cdn.discordapp.com/https://cdn.discordapp.com/s".toList).calls.map
        (fun c => (c.url, c.result.toBool))
      = [("https://cdn.discordapp.com/s".toList, true),
         ("https://cdn.discordapp.com/https://cdn.discordapp.com/s".toList, false)] ∧
    mapKeys (collect (unescapeString entityAmp)
        (downloadImage (onlyNet "https://cdn.discordapp.com/s".toList))
        "https://cdn.discordapp.com/s https://cdn.discordapp.com/https://cdn.discordapp.com/s".toList).replacements
      = ["https://cdn.discordapp.com/s".toList] ∧
    main (unescapeString entityAmp)
        (downloadImage (onlyNet "https://cdn.discordapp.com/s".toList))
        ["https://cdn.discordapp.com/s".toList]
        "https://cdn.discordapp.com/s https://cdn.discordapp.com/https://cdn.discordapp.com/s".toList
      = ("static/432ace1edf30f813501ad121020ff918.png "
          ++ "https://cdn.discordapp.com/static/432ace1edf30f813501ad121020ff918.png").toList ∧
    contains (main (unescapeString entityAmp)
        (downloadImage (onlyNet "https://cdn.discordapp.com/s".toList))
        ["https://cdn.discordapp.com/s".toList]
        "https://cdn.discordapp.com/s https://cdn.discordapp.com/https://cdn.discordapp.com/s".toList)
        "https://cdn.discordapp.com/s".toList = true := by
  decide

/-! ## MD5 on the test suite of RFC 1321 -/

set_option maxRecDepth 100000 in
/-- The digests of four of the test strings of RFC 1321, the last one two
blocks long. -/
theorem md5hex_test_suite :
    md5hex "".toList = "d41d8cd98f00b204e9800998ecf8427e".toList ∧
      md5hex "abc".toList = "900150983cd24fb0d6963f7d28e17f72".toList ∧
      md5hex "message digest".toList = "f96b697d7cb7938d525a2f31aaf161d0".toList ∧
      md5hex ("1234567890123456789012345678901234567890"
          ++ "1234567890123456789012345678901234567890").toList
        = "57edf4a22be3c955ac49da2e2107b67a".toList := by
  decide

/-! ## A document without a match -/

theorem rewriteLoop_no_keys (m : GoMap) (content : Str) : rewriteLoop m [] content = content :=
  rfl

/-- C11: for every document in which the resource-URL pattern has no match the
association map stays empty, no call of `downloadImage` is made, and the
document written back is the input, byte for byte, whatever the world and the
entity decoder are. -/
theorem no_match_identity (unescape : Str → Str) (dl : Download) (content : Str)
    (h : findAllString content = []) :
    (collect unescape dl content).replacements = [] ∧
      (collect unescape dl content).calls = [] ∧
      ∀ order : List Str, order.Perm (mapKeys (collect unescape dl content).replacements) →
        main unescape dl order content = content := by
  have hc : collect unescape dl content = ⟨[], []⟩ := by
    unfold collect
    rw [h]
    rfl
  refine ⟨by rw [hc], by rw [hc], ?_⟩
  intro order hperm
  rw [hc] at hperm
  have ho : order = [] := List.Perm.eq_nil (by simpa [mapKeys] using hperm)
  subst ho
  unfold main
  rfl

/-- C11 at a document that mentions the CDN host without a path. -/
theorem no_match_identity_witness :
    main (unescapeString entityAmp) (downloadImage pngNet) []
        "<a href=\"https://cdn.discordapp.com/\">x</a>".toList
      = "<a href=\"https://cdn.discordapp.com/\">x</a>".toList :=
  (no_match_identity (unescapeString entityAmp) (downloadImage pngNet)
    "<a href=\"https://cdn.discordapp.com/\">x</a>".toList (by decide)).2.2 []
    (List.Perm.refl _)

/-! ## A candidate that is already a key, and a candidate that is fetched -/

theorem processCandidate_skip (unescape : Str → Str) (dl : Download) (st : LoopState)
    (raw : Str) (h : (mapGet st.replacements raw).isSome = true) :
    processCandidate unescape dl st raw = st := by
  unfold processCandidate
  rw [if_pos h]

theorem processCandidate_keeps_key (unescape : Str → Str) (dl : Download) (st : LoopState)
    (raw x : Str) (h : (mapGet st.replacements x).isSome = true) :
    (mapGet (processCandidate unescape dl st raw).replacements x).isSome = true := by
  have := (candidateLoop_invariant unescape dl [raw] st).1 x h
  simpa [candidateLoop] using this

/-- Once a raw match is a key, its later occurrences among the candidates change
nothing: they can be left out of the list. -/
theorem candidateLoop_skip_key (unescape : Str → Str) (dl : Download) (raw : Str) :
    ∀ (found : List Str) (st : LoopState), (mapGet st.replacements raw).isSome = true →
      candidateLoop unescape dl st found
        = candidateLoop unescape dl st (found.filter (fun c => c != raw))
  | [], _, _ => rfl
  | c :: found, st, h => by
    by_cases hc : c = raw
    · subst hc
      have hskip := processCandidate_skip unescape dl st c h
      simp only [candidateLoop, List.foldl_cons, hskip, List.filter_cons, bne_self_eq_false,
        Bool.false_eq_true, if_false]
      exact candidateLoop_skip_key unescape dl c found st h
    · have hne : (c != raw) = true := by simpa using hc
      simp only [candidateLoop, List.foldl_cons, List.filter_cons, hne, if_true]
      exact candidateLoop_skip_key unescape dl raw found _
        (processCandidate_keeps_key unescape dl st c raw h)

/-- C14: a candidate whose raw match is already a key when its iteration starts
causes no call of `downloadImage` and leaves the map as it is (the state of the
loop is unchanged).  A raw match that is fetched successfully is a key from then
on, so all its later occurrences among the candidates are skipped: the loop ends
in the same state, calls included, as without them. -/
theorem known_candidate_skipped (unescape : Str → Str) (dl : Download) (st : LoopState)
    (raw : Str) :
    ((mapGet st.replacements raw).isSome = true →
      processCandidate unescape dl st raw = st) ∧
    (∀ f, mapGet st.replacements raw = none →
      (tryDownloadWithVariants dl st.calls (decodedOf unescape raw)).1 = .ok f →
      ∀ later : List Str,
        (mapGet (processCandidate unescape dl st raw).replacements raw).isSome = true ∧
        candidateLoop unescape dl (processCandidate unescape dl st raw) later
          = candidateLoop unescape dl (processCandidate unescape dl st raw)
              (later.filter (fun c => c != raw))) := by
  refine ⟨processCandidate_skip unescape dl st raw, ?_⟩
  intro f hnew hok later
  have hkey : (mapGet (processCandidate unescape dl st raw).replacements raw).isSome = true := by
    rw [processCandidate_ok unescape dl st raw f hnew hok, mapGet_recordVariants]
    simp
  exact ⟨hkey, candidateLoop_skip_key unescape dl raw later _ hkey⟩

set_option maxRecDepth 100000 in
/-- C14 at a document that holds the same URL twice: one call of
`downloadImage`. -/
theorem known_candidate_skipped_witness :
    processCandidate (unescapeString entityAmp) (downloadImage pngNet)
        (processCandidate (unescapeString entityAmp) (downloadImage pngNet) ⟨[], []⟩
          "https://cdn.discordapp.com/a.png".toList)
        "https://cdn.discordapp.com/a.png".toList
      = processCandidate (unescapeString entityAmp) (downloadImage pngNet) ⟨[], []⟩
          "https://cdn.discordapp.com/a.png".toList ∧
    (collect (unescapeString entityAmp) (downloadImage pngNet)
        "https://cdn.discordapp.com/a.png https://cdn.discordapp.com/a.png".toList).calls.map
        (fun c => c.url)
      = ["https://cdn.discordapp.com/a.png".toList] :=
  ⟨(known_candidate_skipped (unescapeString entityAmp) (downloadImage pngNet)
      (processCandidate (unescapeString entityAmp) (downloadImage pngNet) ⟨[], []⟩
        "https://cdn.discordapp.com/a.png".toList)
      "https://cdn.discordapp.com/a.png".toList).1 (by decide),
   by decide⟩

/-- C17: for a candidate whose raw match is not yet a key and whose fetch
succeeds with file name `f`, right after its iteration the raw match, the
cleaned form (the result of `extractCompleteURL` without one trailing `&`) and
the decoded form of the cleaned form are keys with the value `static/` followed
by `f`, and every other string is a key exactly if it was one before, with the
value it had. -/
theorem fetched_candidate_entries (unescape : Str → Str) (dl : Download) (st : LoopState)
    (raw f : Str) (hnew : mapGet st.replacements raw = none)
    (hok : (tryDownloadWithVariants dl st.calls (decodedOf unescape raw)).1 = .ok f) :
    (∀ v ∈ [raw, cleanedOf raw, decodedOf unescape raw],
      mapGet (processCandidate unescape dl st raw).replacements v
        = some ("static/".toList ++ f)) ∧
    (∀ x, x ∉ [raw, cleanedOf raw, decodedOf unescape raw] →
      mapGet (processCandidate unescape dl st raw).replacements x
        = mapGet st.replacements x) ∧
    (∀ x, x ∈ mapKeys (processCandidate unescape dl st raw).replacements ↔
      x ∈ [raw, cleanedOf raw, decodedOf unescape raw] ∨ x ∈ mapKeys st.replacements) := by
  have hstep := processCandidate_ok unescape dl st raw f hnew hok
  have hget : ∀ x, mapGet (processCandidate unescape dl st raw).replacements x
      = if x ∈ [raw, cleanedOf raw, decodedOf unescape raw] then some ("static/".toList ++ f)
        else mapGet st.replacements x := by
    intro x
    rw [hstep, mapGet_recordVariants]
    simp only [List.mem_cons, List.mem_singleton, List.not_mem_nil, or_false]
  refine ⟨fun v hv => by rw [hget, if_pos hv], fun x hx => by rw [hget, if_neg hx], ?_⟩
  intro x
  rw [← mapGet_isSome_iff, ← mapGet_isSome_iff, hget]
  by_cases hx : x ∈ [raw, cleanedOf raw, decodedOf unescape raw]
  · simp [hx]
  · simp [hx]

set_option maxRecDepth 100000 in
/-- C17 at the raw match `...pic.png?ex=AA&amp;hm=BB&` with an empty map: three
different variants, one path. -/
theorem fetched_candidate_entries_witness :
    mapGet (processCandidate (unescapeString entityAmp) (fun _ _ => .ok "f.png".toList)
        ⟨[], []⟩ "https://cdn.discordapp.com/pic.png?ex=AA&amp;hm=BB&".toList).replacements
        "https://cdn.discordapp.com/pic.png?ex=AA&amp;hm=BB&".toList
      = some ("static/".toList ++ "f.png".toList) ∧
    mapGet (processCandidate (unescapeString entityAmp) (fun _ _ => .ok "f.png".toList)
        ⟨[], []⟩ "https://cdn.discordapp.com/pic.png?ex=AA&amp;hm=BB&".toList).replacements
        "https://cdn.discordapp.com/pic.png?ex=AA&amp;hm=BB".toList
      = some ("static/".toList ++ "f.png".toList) ∧
    mapGet (processCandidate (unescapeString entityAmp) (fun _ _ => .ok "f.png".toList)
        ⟨[], []⟩ "https://cdn.discordapp.com/pic.png?ex=AA&amp;hm=BB&".toList).replacements
        "https://cdn.discordapp.com/pic.png?ex=AA&hm=BB".toList
      = some ("static/".toList ++ "f.png".toList) :=
  ⟨(fetched_candidate_entries (unescapeString entityAmp) (fun _ _ => .ok "f.png".toList)
      ⟨[], []⟩ "https://cdn.discordapp.com/pic.png?ex=AA&amp;hm=BB&".toList "f.png".toList
      (by decide) rfl).1 _ (by decide),
   (fetched_candidate_entries (unescapeString entityAmp) (fun _ _ => .ok "f.png".toList)
      ⟨[], []⟩ "https://cdn.discordapp.com/pic.png?ex=AA&amp;hm=BB&".toList "f.png".toList
      (by decide) rfl).1 _ (by decide),
   (fetched_candidate_entries (unescapeString entityAmp) (fun _ _ => .ok "f.png".toList)
      ⟨[], []⟩ "https://cdn.discordapp.com/pic.png?ex=AA&amp;hm=BB&".toList "f.png".toList
      (by decide) rfl).1 _ (by decide)⟩

/-! ## The extractor -/

theorem cdnPrefix_bytes : ∀ c ∈ cdnPrefix, isUrlByte c = true := by decide

theorem findAllAux_nil (k : Nat) : findAllAux k [] = [] := by cases k <;> rfl

theorem findAllAux_drop : ∀ (s : Str) (k : Nat), findAllAux k s = findAllAux 0 (s.drop k)
  | [], k => by simp [findAllAux_nil]
  | _ :: _, 0 => rfl
  | _ :: cs, k + 1 => by
    simp only [findAllAux, List.drop_succ_cons]
    exact findAllAux_drop cs k

theorem hasPrefix_iff (s pre : Str) : hasPrefix s pre = true ↔ pre <+: s := by
  simp [hasPrefix, List.isPrefixOf_iff_prefix]

/-- The match at the beginning of `s`, if there is one, and the text behind it. -/
theorem matchAt_some (s m : Str) (h : matchAt s = some m) :
    IsMatch m ∧ ∃ rest, s = m ++ rest ∧ ∀ d, rest.head? = some d → isUrlByte d = false := by
  unfold matchAt at h
  split at h
  · rename_i hp
    dsimp only at h
    split at h
    · cases h
    · rename_i hrun
      have hm := (Option.some.inj h).symm
      obtain ⟨t, ht⟩ := (hasPrefix_iff s cdnPrefix).1 hp
      have hdrop : s.drop cdnPrefix.length = t := by rw [← ht]; simp
      rw [hdrop] at hm hrun
      subst hm
      refine ⟨⟨⟨_, hrun, rfl⟩, ?_⟩, t.dropWhile isUrlByte, ?_, ?_⟩
      · intro c hc
        rcases List.mem_append.1 hc with hc | hc
        · exact cdnPrefix_bytes c hc
        · exact (List.mem_takeWhile_imp hc)
      · rw [← ht, List.append_assoc, List.takeWhile_append_dropWhile]
      · intro d hd
        cases hdw : t.dropWhile isUrlByte with
        | nil => rw [hdw] at hd; cases hd
        | cons e r =>
          rw [hdw] at hd
          cases hd
          have := List.head_dropWhile_not isUrlByte t (by rw [hdw]; simp)
          simpa [hdw] using this
  · cases h

theorem matchAt_none_iff (s : Str) : matchAt s = none ↔ ¬ StartsMatch s := by
  constructor
  · intro h ⟨c, hc, t, ht⟩
    unfold matchAt at h
    have hp : hasPrefix s cdnPrefix = true :=
      (hasPrefix_iff s cdnPrefix).2 ⟨c :: t, by rw [← ht]; simp⟩
    rw [if_pos hp] at h
    dsimp only at h
    have hdrop : s.drop cdnPrefix.length = c :: t := by rw [← ht]; simp
    rw [hdrop, List.takeWhile_cons, if_pos hc] at h
    simp at h
  · intro h
    cases hm : matchAt s with
    | none => rfl
    | some m =>
      exfalso
      apply h
      obtain ⟨⟨⟨run, hrun, rfl⟩, hbytes⟩, rest, hs, -⟩ := matchAt_some s m hm
      cases run with
      | nil => exact absurd rfl hrun
      | cons c run =>
        exact ⟨c, hbytes c (by simp), run ++ rest, by rw [hs]; simp⟩

theorem extracted_cons (c : Char) (cs : Str) (ms : List Str) (hc : ¬ StartsMatch (c :: cs))
    (h : Extracted cs ms) : Extracted (c :: cs) ms := by
  cases h with
  | done gap hgap =>
    refine Extracted.done _ ?_
    intro pre suf hsplit
    cases pre with
    | nil =>
      simp only [List.nil_append] at hsplit
      rw [← hsplit]; exact hc
    | cons a pre =>
      simp only [List.cons_append, List.cons.injEq] at hsplit
      exact hgap pre suf hsplit.2
  | step gap m rest ms' hgap hm hmax hrest =>
    have := Extracted.step (c :: gap) m rest ms' ?_ hm hmax hrest
    · simpa using this
    · intro pre suf hsplit hsuf
      cases pre with
      | nil =>
        simp only [List.nil_append] at hsplit
        rw [← hsplit]; simpa using hc
      | cons a pre =>
        simp only [List.cons_append, List.cons.injEq] at hsplit
        exact hgap pre suf hsplit.2 hsuf

/-- The scan yields what the relation asks for. -/
theorem findAllAux_extracted : ∀ (n : Nat) (s : Str), s.length ≤ n →
    Extracted s (findAllAux 0 s)
  | _, [], _ => by
    refine Extracted.done [] ?_
    intro pre suf hsplit
    have hsuf : suf = [] := (List.append_eq_nil.1 hsplit.symm).2
    rintro ⟨c, -, t, ht⟩
    rw [hsuf] at ht
    simp [cdnPrefix] at ht
  | 0, _ :: _, h => by simp at h
  | n + 1, c :: cs, h => by
    cases hm : matchAt (c :: cs) with
    | none =>
      have : findAllAux 0 (c :: cs) = findAllAux 0 cs := by simp only [findAllAux, hm]
      rw [this]
      exact extracted_cons c cs _ ((matchAt_none_iff _).1 hm)
        (findAllAux_extracted n cs (by simpa using h))
    | some m =>
      obtain ⟨hmatch, rest, hs, hmax⟩ := matchAt_some _ m hm
      have hmlen : 0 < m.length := by
        obtain ⟨⟨run, hrun, rfl⟩, -⟩ := hmatch
        simp [cdnPrefix]
      have hlist : findAllAux 0 (c :: cs) = m :: findAllAux 0 rest := by
        simp only [findAllAux, hm]
        rw [findAllAux_drop]
        congr 2
        have : cs = (c :: cs).drop 1 := rfl
        rw [this, hs, List.drop_drop]
        have : 1 + (m.length - 1) = m.length := by omega
        rw [this]
        simp
      rw [hlist, hs]
      have hrest : Extracted rest (findAllAux 0 rest) := by
        apply findAllAux_extracted n rest
        have := congrArg List.length hs
        simp only [List.length_cons, List.length_append] at this h
        omega
      have := Extracted.step [] m rest _ ?_ hmatch hmax hrest
      · simpa using this
      · intro pre suf hsplit hsuf
        exact absurd (List.append_eq_nil.1 hsplit.symm).2 hsuf

theorem extracted_isMatch {s : Str} {ms : List Str} (h : Extracted s ms) :
    ∀ m ∈ ms, IsMatch m := by
  induction h with
  | done gap hgap => intro m hm; simp at hm
  | step gap m rest ms hgap hm hmax hrest ih =>
    intro x hx
    rcases List.mem_cons.1 hx with rfl | hx
    · exact hm
    · exact ih x hx

/-- Every match of the extractor is of the shape the pattern describes. -/
theorem findAllString_isMatch (content m : Str) (h : m ∈ findAllString content) : IsMatch m :=
  extracted_isMatch (findAllAux_extracted content.length content le_rfl) m h

/-- A match that is followed by a byte outside the class is returned, and the
scan goes on behind that byte. -/
theorem findAllString_match_delim (m rest : Str) (d : Char) (hm : IsMatch m)
    (hd : isUrlByte d = false) :
    findAllString (m ++ d :: rest) = m :: findAllString rest := by
  obtain ⟨⟨run, hrun, rfl⟩, hbytes⟩ := hm
  have hmatch : matchAt (cdnPrefix ++ run ++ d :: rest) = some (cdnPrefix ++ run) := by
    unfold matchAt
    have hp : hasPrefix (cdnPrefix ++ run ++ d :: rest) cdnPrefix = true :=
      (hasPrefix_iff _ _).2 ⟨run ++ d :: rest, by simp⟩
    rw [if_pos hp]
    dsimp only
    have hdrop : (cdnPrefix ++ run ++ d :: rest).drop cdnPrefix.length = run ++ d :: rest := by
      simp
    have htw : (run ++ d :: rest).takeWhile isUrlByte = run := by
      rw [List.takeWhile_append_of_pos (fun c hc => hbytes c (List.mem_append_right _ hc))]
      simp [List.takeWhile_cons, hd]
    rw [hdrop, htw, if_neg hrun]
  have hnone : matchAt (d :: rest) = none := by
    rw [matchAt_none_iff]
    rintro ⟨c, -, t, ht⟩
    have : d = 'h' := by
      simp only [cdnPrefix] at ht
      have := congrArg List.head? ht
      simpa using this.symm
    rw [this] at hd
    exact absurd hd (by decide)
  unfold findAllString
  cases hcons : cdnPrefix ++ run ++ d :: rest with
  | nil => simp [cdnPrefix] at hcons
  | cons a tl =>
    rw [← hcons]
    have h1 : findAllAux 0 (cdnPrefix ++ run ++ d :: rest)
        = (cdnPrefix ++ run) :: findAllAux ((cdnPrefix ++ run).length - 1) tl := by
      rw [hcons] at hmatch ⊢
      simp only [findAllAux, hmatch]
    rw [h1, findAllAux_drop]
    have htl : tl = (cdnPrefix ++ run ++ d :: rest).drop 1 := by rw [hcons]; rfl
    have hlen : 0 < (cdnPrefix ++ run).length := by simp [cdnPrefix]
    rw [htl, List.drop_drop]
    have : 1 + ((cdnPrefix ++ run).length - 1) = (cdnPrefix ++ run).length := by omega
    rw [this, List.drop_left' rfl]
    simp only [findAllAux, hnone]


/-- A match at the end of the document is returned. -/
theorem findAllString_match_end (m : Str) (hm : IsMatch m) : findAllString m = [m] := by
  obtain ⟨⟨run, hrun, rfl⟩, hbytes⟩ := hm
  have hmatch : matchAt (cdnPrefix ++ run) = some (cdnPrefix ++ run) := by
    unfold matchAt
    have hp : hasPrefix (cdnPrefix ++ run) cdnPrefix = true :=
      (hasPrefix_iff _ _).2 ⟨run, rfl⟩
    rw [if_pos hp]
    dsimp only
    have hdrop : (cdnPrefix ++ run).drop cdnPrefix.length = run := by simp
    have htw : run.takeWhile isUrlByte = run :=
      List.takeWhile_eq_self_iff.2 (fun c hc => hbytes c (List.mem_append_right _ hc))
    rw [hdrop, htw, if_neg hrun]
  unfold findAllString
  cases hcons : cdnPrefix ++ run with
  | nil => simp [cdnPrefix] at hcons
  | cons a tl =>
    rw [hcons] at hmatch
    simp only [findAllAux, hmatch]
    rw [findAllAux_drop]
    have : tl.drop ((a :: tl).length - 1) = [] := by simp
    rw [this]
    rfl

/-- C13: for every document the extractor returns, in document order,
non-overlapping pieces of the document (the document is gap, match, gap, match,
..., gap), each of which is `https://cdn.discordapp.com/` followed by at least
one further byte, holds no white space and none of `<`, `>`, the double and the
single quote, and is maximal: the byte behind it, if there is one, is white
space or one of the four delimiters.  No match starts inside a gap.  A match
followed by a byte outside the class is returned whatever comes before or
behind, so a URL that occurs twice is returned twice. -/
theorem extractor_spec (content : Str) :
    Extracted content (findAllString content) ∧
    (∀ m ∈ findAllString content, IsMatch m) ∧
    (∀ (m rest : Str) (d : Char), IsMatch m → isUrlByte d = false →
      findAllString (m ++ d :: rest) = m :: findAllString rest) ∧
    (∀ (m : Str) (d : Char), IsMatch m → isUrlByte d = false →
      findAllString (m ++ d :: m) = [m, m]) := by
  refine ⟨findAllAux_extracted content.length content le_rfl,
    findAllString_isMatch content, findAllString_match_delim, ?_⟩
  intro m d hm hd
  rw [findAllString_match_delim m m d hm hd, findAllString_match_end m hm]

/-- C13 at a document that holds one URL twice, separated by a space. -/
theorem extractor_spec_witness :
    findAllString ("https://cdn.discordapp.com/a.png".toList
        ++ ' ' :: "https://cdn.discordapp.com/a.png".toList)
      = ["https://cdn.discordapp.com/a.png".toList, "https://cdn.discordapp.com/a.png".toList] :=
  (extractor_spec ("https://cdn.discordapp.com/a.png".toList
      ++ ' ' :: "https://cdn.discordapp.com/a.png".toList)).2.2.2
    "https://cdn.discordapp.com/a.png".toList ' '
    ⟨⟨"a.png".toList, by decide, by decide⟩, by decide⟩ (by decide)

/-! ## Trimming a string without delimiters -/

theorem marker_heads : ∀ m ∈ htmlTerminators, ∃ c ∈ "<>\"'".toList, m.head? = some c := by
  decide

theorem delimiters_not_url : ∀ c ∈ "<>\"'".toList, isUrlByte c = false := by decide

theorem index_none_of_head_absent (s m : Str) (c : Char) (hc : m.head? = some c)
    (hs : c ∉ s) : index s m = none := by
  cases hi : index s m with
  | none => rfl
  | some p =>
    exfalso
    obtain ⟨-, hp, -⟩ := (index_eq_some_iff s m p).1 hi
    obtain ⟨t, ht⟩ := (hasPrefix_iff _ _).1 hp
    cases m with
    | nil => simp at hc
    | cons a m =>
      simp only [List.head?_cons, Option.some.injEq] at hc
      subst hc
      apply hs
      have : a ∈ s.drop p := by rw [← ht]; simp
      exact List.mem_of_mem_drop this

theorem extractCompleteURL_no_delimiter (s : Str) (h : ∀ c ∈ "<>\"'".toList, c ∉ s) :
    (∀ m ∈ htmlTerminators, index s m = none) ∧ extractCompleteURL s = s := by
  have hnone : ∀ m ∈ htmlTerminators, index s m = none := by
    intro m hm
    obtain ⟨c, hc, hhead⟩ := marker_heads m hm
    exact index_none_of_head_absent s m c hhead (h c hc)
  refine ⟨hnone, (extractCompleteURL_least s).2 ?_⟩
  intro m hm q hq
  rw [hnone m hm] at hq
  cases hq

theorem isMatch_no_delimiter (m : Str) (hm : IsMatch m) : ∀ c ∈ "<>\"'".toList, c ∉ m := by
  intro c hc hmem
  have h1 := hm.2 c hmem
  rw [delimiters_not_url c hc] at h1
  cases h1

/-- C18: for every string that holds none of `<`, `>`, the double and the single
quote, none of the six markers occurs in it, the compound markers `</a>` and
`</span>` included, and `extractCompleteURL` returns the string unchanged; every
match of the extractor is such a string, so on the output of the extractor the
trimming step is the identity. -/
theorem extractCompleteURL_identity (s : Str) :
    ((∀ c ∈ "<>\"'".toList, c ∉ s) →
      (∀ m ∈ htmlTerminators, index s m = none) ∧ extractCompleteURL s = s) ∧
    (∀ content : Str, s ∈ findAllString content →
      (∀ m ∈ htmlTerminators, index s m = none) ∧ extractCompleteURL s = s) :=
  ⟨extractCompleteURL_no_delimiter s, fun content hs =>
    extractCompleteURL_no_delimiter s
      (isMatch_no_delimiter s (findAllString_isMatch content s hs))⟩

/-- C18 at the match of the document
`<img src="https://cdn.discordapp.com/attachments/1/2/pic.png?ex=AA&amp;hm=BB">`. -/
theorem extractCompleteURL_identity_witness :
    extractCompleteURL "https://cdn.discordapp.com/attachments/1/2/pic.png?ex=AA&amp;hm=BB".toList
      = "https://cdn.discordapp.com/attachments/1/2/pic.png?ex=AA&amp;hm=BB".toList :=
  ((extractCompleteURL_identity
      "https://cdn.discordapp.com/attachments/1/2/pic.png?ex=AA&amp;hm=BB".toList).2
    "<img src=\"https://cdn.discordapp.com/attachments/1/2/pic.png?ex=AA&amp;hm=BB\">".toList
    (by decide)).2

/-! ## The shape of file names -/

theorem hexDigit_mem (n : Nat) : hexDigit n ∈ "0123456789abcdef".toList := by
  by_cases h : n < 16
  · interval_cases n <;> decide
  · have : "0123456789abcdef".toList.length ≤ n := by
      have : "0123456789abcdef".toList.length = 16 := by decide
      omega
    simp only [hexDigit, List.getD_eq_getElem?_getD, List.getElem?_eq_none this,
      Option.getD_none]
    decide

theorem leBytes_length (w : Nat) : (leBytes w).length = 4 := by
  simp [leBytes]

/-- The digest is printed as 32 lowercase hexadecimal digits. -/
theorem md5hex_shape (s : Str) :
    (md5hex s).length = 32 ∧ ∀ c ∈ md5hex s, c ∈ "0123456789abcdef".toList := by
  unfold md5hex
  dsimp only
  generalize md5Blocks _ _ _ = st
  obtain ⟨a, b, c, d⟩ := st
  dsimp only
  constructor
  · simp [List.length_flatten, List.map_map, Function.comp_def, hexByte, leBytes_length]
  · intro x hx
    simp only [List.mem_flatten, List.mem_map] at hx
    obtain ⟨l, ⟨y, -, rfl⟩, hx⟩ := hx
    simp only [hexByte, List.mem_cons, List.mem_singleton, List.not_mem_nil, or_false] at hx
    rcases hx with rfl | rfl <;> exact hexDigit_mem _

theorem pathExtAux_no_slash : ∀ (path acc : Str), '/' ∉ acc → '/' ∉ pathExtAux path acc
  | [], _, _ => by simp [pathExtAux]
  | c :: before, acc, h => by
    unfold pathExtAux
    split
    · simp
    · rename_i hc
      split
      · rename_i hdot
        subst hdot
        simp only [List.mem_cons, not_or]
        exact ⟨by decide, h⟩
      · apply pathExtAux_no_slash before (c :: acc)
        simp only [List.mem_cons, not_or]
        exact ⟨fun e => hc e.symm, h⟩

theorem getExtension_no_slash (ct : Str) : '/' ∉ getExtensionFromContentType ct := by
  unfold getExtensionFromContentType
  repeat' split
  all_goals decide

/-- The file name of a successful download: the digest of the URL, then an
extension without a slash. -/
theorem downloadImage_ok (net : Net) (n : Nat) (url f : Str)
    (h : downloadImage net n url = .ok f) :
    ∃ ct, net n url = .ok ct ∧
      f = md5hex url ++ (if pathExt (urlPath url) = [] then getExtensionFromContentType ct
        else pathExt (urlPath url)) ∧
      '/' ∉ (if pathExt (urlPath url) = [] then getExtensionFromContentType ct
        else pathExt (urlPath url)) := by
  unfold downloadImage at h
  cases hn : net n url with
  | error e => rw [hn] at h; cases h
  | ok ct =>
    rw [hn] at h
    refine ⟨ct, rfl, ?_, ?_⟩
    · simp only [Except.ok.injEq] at h
      exact h.symm
    · split
      · exact getExtension_no_slash ct
      · exact pathExtAux_no_slash _ _ (by simp)


/-- C15, amended: the file name `downloadImage` produces for a URL is the MD5
digest of the URL string, 32 lowercase hexadecimal digits, followed by the
extension.  The digest depends on the URL string alone.  The extension is that
of the URL path when the path has one, and then any two successful responses
give the same file name; when the path has none the extension is derived from
the `Content-Type` of the response, and two successful responses give the same
file name exactly when their content types lead to the same extension. -/
theorem filename_of_url (net1 net2 : Net) (n1 n2 : Nat) (url ct1 ct2 : Str)
    (h1 : net1 n1 url = .ok ct1) (h2 : net2 n2 url = .ok ct2) :
    ∃ ext1 ext2,
      downloadImage net1 n1 url = .ok (md5hex url ++ ext1) ∧
      downloadImage net2 n2 url = .ok (md5hex url ++ ext2) ∧
      (md5hex url).length = 32 ∧ (∀ c ∈ md5hex url, c ∈ "0123456789abcdef".toList) ∧
      (pathExt (urlPath url) ≠ [] →
        ext1 = pathExt (urlPath url) ∧ ext2 = pathExt (urlPath url)) ∧
      (pathExt (urlPath url) = [] →
        ext1 = getExtensionFromContentType ct1 ∧ ext2 = getExtensionFromContentType ct2) ∧
      (pathExt (urlPath url) ≠ [] → md5hex url ++ ext1 = md5hex url ++ ext2) ∧
      (pathExt (urlPath url) = [] →
        (md5hex url ++ ext1 = md5hex url ++ ext2 ↔
          getExtensionFromContentType ct1 = getExtensionFromContentType ct2)) := by
  refine ⟨if pathExt (urlPath url) = [] then getExtensionFromContentType ct1
      else pathExt (urlPath url),
    if pathExt (urlPath url) = [] then getExtensionFromContentType ct2
      else pathExt (urlPath url), ?_, ?_, (md5hex_shape url).1, (md5hex_shape url).2, ?_, ?_,
    ?_, ?_⟩
  · simp only [downloadImage, h1]
  · simp only [downloadImage, h2]
  · intro h; simp [h]
  · intro h; simp [h]
  · intro h; simp [h]
  · intro h; simp [h]

set_option maxRecDepth 100000 in
/-- C15 amended, at a URL whose path ends in `.png`, answered once as
`image/png` and once as `text/html`: the same file name. -/
theorem filename_of_url_witness :
    downloadImage (fun _ _ => .ok "image/png".toList) 0
        "https://cdn.discordapp.com/attachments/1/2/pic.png?ex=AA&hm=BB".toList
      = .ok "46fcb1faa208fdd61c2a8e3f5d6a31a9.png".toList ∧
    downloadImage (fun _ _ => .ok "text/html".toList) 1
        "https://cdn.discordapp.com/attachments/1/2/pic.png?ex=AA&hm=BB".toList
      = .ok "46fcb1faa208fdd61c2a8e3f5d6a31a9.png".toList := by
  obtain ⟨ext1, ext2, e1, e2, -, -, hp, -, -, -⟩ :=
    filename_of_url (fun _ _ => .ok "image/png".toList) (fun _ _ => .ok "text/html".toList) 0 1
      "https://cdn.discordapp.com/attachments/1/2/pic.png?ex=AA&hm=BB".toList
      "image/png".toList "text/html".toList rfl rfl
  obtain ⟨rfl, rfl⟩ := hp (by decide)
  rw [e1, e2]
  have hd : md5hex "https://cdn.discordapp.com/attachments/1/2/pic.png?ex=AA&hm=BB".toList
        ++ pathExt (urlPath
          "https://cdn.discordapp.com/attachments/1/2/pic.png?ex=AA&hm=BB".toList)
      = "46fcb1faa208fdd61c2a8e3f5d6a31a9.png".toList := by decide
  rw [hd]
  exact ⟨rfl, rfl⟩

set_option maxRecDepth 100000 in
/-- C15 as stated fails at the URL `https://cdn.discordapp.com/x`, whose path
has no extension, when one response has the content type `image/png` and
another `image/gif`: both downloads succeed and the file names differ. -/
theorem filename_counterexample :
    downloadImage (fun n _ => if n = 0 then .ok "image/png".toList else .ok "image/gif".toList)
        0 "https://cdn.discordapp.com/x".toList
      = .ok "d7bc0c7605945573ef82066538d4999b.png".toList ∧
    downloadImage (fun n _ => if n = 0 then .ok "image/png".toList else .ok "image/gif".toList)
        1 "https://cdn.discordapp.com/x".toList
      = .ok "d7bc0c7605945573ef82066538d4999b.gif".toList ∧
    "d7bc0c7605945573ef82066538d4999b.png".toList
      ≠ "d7bc0c7605945573ef82066538d4999b.gif".toList := by
  refine ⟨?_, ?_, by decide⟩
  · have hd : md5hex "https://cdn.discordapp.com/x".toList ++ ".png".toList
        = "d7bc0c7605945573ef82066538d4999b.png".toList := by decide
    rw [← hd]
    rfl
  · have hd : md5hex "https://cdn.discordapp.com/x".toList ++ ".gif".toList
        = "d7bc0c7605945573ef82066538d4999b.gif".toList := by decide
    rw [← hd]
    rfl

/-! ## Keys are CDN URLs, values are paths under `static/` -/

theorem tryVariants_ok (dl : Download) : ∀ (variants : List Str) (lastErr : Option GoError)
    (calls : List Call) (f : Str), variants ≠ [] →
    (tryVariants dl variants lastErr calls).1 = .ok f → ∃ n v, dl n v = .ok f
  | [], _, _, _, h, _ => absurd rfl h
  | v :: rest, lastErr, calls, f, _, hok => by
    unfold tryVariants at hok
    cases hd : dl calls.length v with
    | ok g =>
      rw [hd] at hok
      simp only [Except.ok.injEq] at hok
      subst hok
      exact ⟨_, _, hd⟩
    | error e =>
      rw [hd] at hok
      dsimp only at hok
      cases rest with
      | nil => simp [tryVariants] at hok
      | cons w rest => exact tryVariants_ok dl (w :: rest) _ _ f (by simp) hok

theorem variantsOf_ne_nil (u : Str) : variantsOf u ≠ [] := by
  unfold variantsOf
  split <;> simp

/-- An iteration leaves the map alone or makes the three assignments for a file
name that a call of `downloadImage` returned. -/
theorem processCandidate_cases_dl (unescape : Str → Str) (dl : Download) (st : LoopState)
    (raw : Str) :
    (processCandidate unescape dl st raw).replacements = st.replacements ∨
      ∃ f n v, dl n v = .ok f ∧ (processCandidate unescape dl st raw).replacements
        = recordVariants st.replacements raw (cleanedOf raw) (decodedOf unescape raw)
            ("static/".toList ++ f) := by
  unfold processCandidate decodedOf
  split
  · exact Or.inl rfl
  · cases hres : tryDownloadWithVariants dl st.calls (unescape (cleanedOf raw)) with
    | mk r c =>
      cases r with
      | error e => left; simp only [hres]
      | ok f =>
        right
        obtain ⟨n, v, hnv⟩ := tryVariants_ok dl (variantsOf (unescape (cleanedOf raw))) none
          st.calls f (variantsOf_ne_nil _) (by
            have := congrArg Prod.fst hres
            simpa [tryDownloadWithVariants] using this)
        exact ⟨f, n, v, hnv, by simp only [hres]⟩

/-- A property of keys and a property of values that hold at the start and for
whatever an iteration assigns hold when the loop ends. -/
theorem candidateLoop_shape (unescape : Str → Str) (dl : Download) (K V : Str → Prop)
    (hV : ∀ f n v, dl n v = .ok f → V ("static/".toList ++ f)) :
    ∀ (found : List Str) (st : LoopState),
    (∀ raw ∈ found, K raw ∧ K (cleanedOf raw) ∧ K (decodedOf unescape raw)) →
    (∀ x p, mapGet st.replacements x = some p → K x ∧ V p) →
    ∀ x p, mapGet (candidateLoop unescape dl st found).replacements x = some p → K x ∧ V p
  | [], _, _, h => h
  | raw :: found, st, hK, h => by
    have hcons : candidateLoop unescape dl st (raw :: found)
        = candidateLoop unescape dl (processCandidate unescape dl st raw) found := rfl
    rw [hcons]
    apply candidateLoop_shape unescape dl K V hV found _
      (fun r hr => hK r (List.mem_cons_of_mem _ hr))
    intro x p hp
    rcases processCandidate_cases_dl unescape dl st raw with hs | ⟨f, n, v, hnv, hs⟩
    · rw [hs] at hp
      exact h x p hp
    · rw [hs, mapGet_recordVariants] at hp
      split at hp
      · rename_i hx
        obtain ⟨k1, k2, k3⟩ := hK raw (List.mem_cons_self _ _)
        have hp2 := (Option.some.inj hp).symm
        subst hp2
        refine ⟨?_, hV f n v hnv⟩
        rcases hx with rfl | rfl | rfl
        · exact k1
        · exact k2
        · exact k3
      · exact h x p hp

theorem unescapeAux_copy (entity : Str → Str × Nat) : ∀ (a b : Str), '&' ∉ a →
    unescapeAux entity 0 (a ++ b) = a ++ unescapeAux entity 0 b
  | [], _, _ => rfl
  | c :: a, b, h => by
    have hc : c ≠ '&' := fun e => h (by simp [e])
    simp only [List.cons_append, unescapeAux, hc, if_false, List.append_eq]
    rw [unescapeAux_copy entity a b (fun hm => h (List.mem_cons_of_mem _ hm))]

theorem cdnPrefix_no_amp : '&' ∉ cdnPrefix := by decide

/-- The three variants of a match of the pattern start with the literal of the
pattern. -/
theorem variants_cdnPrefix (entity : Str → Str × Nat) (raw : Str) (hm : IsMatch raw) :
    cdnPrefix <+: raw ∧ cdnPrefix <+: cleanedOf raw ∧
      cdnPrefix <+: decodedOf (unescapeString entity) raw := by
  obtain ⟨run, hrun, hraw⟩ := hm.1
  have h1 : cdnPrefix <+: raw := ⟨run, hraw.symm⟩
  have hex : extractCompleteURL raw = raw :=
    (extractCompleteURL_no_delimiter raw (isMatch_no_delimiter raw hm)).2
  have h2 : cdnPrefix <+: cleanedOf raw := by
    unfold cleanedOf
    rw [hex]
    dsimp only
    split
    · obtain ⟨t, ht⟩ := List.eq_nil_or_concat run |>.resolve_left hrun
      obtain ⟨d, hd⟩ := ht
      refine ⟨t, ?_⟩
      rw [hraw, hd]
      simp [List.take_append_eq_append_take]
    · exact h1
  refine ⟨h1, h2, ?_⟩
  obtain ⟨t, ht⟩ := h2
  unfold decodedOf unescapeString
  rw [← ht, unescapeAux_copy entity cdnPrefix t cdnPrefix_no_amp]
  exact List.prefix_append _ _


theorem slash_count_path (h ext : Str) (hh : ∀ c ∈ h, c ∈ "0123456789abcdef".toList)
    (hext : '/' ∉ ext) : ("static/".toList ++ h ++ ext).count '/' = 1 := by
  have hh0 : h.count '/' = 0 := by
    apply List.count_eq_zero_of_not_mem
    intro hm
    exact absurd (hh _ hm) (by decide)
  have hext0 : ext.count '/' = 0 := List.count_eq_zero_of_not_mem hext
  have hs : "static/".toList.count '/' = 1 := by decide
  rw [List.count_append, List.count_append, hh0, hext0, hs]

theorem slash_count_key (k : Str) (hk : cdnPrefix <+: k) : 3 ≤ k.count '/' := by
  have h3 : cdnPrefix.count '/' = 3 := by decide
  have := hk.sublist.count_le '/'
  omega

/-- C19: whatever the document, the entity decoder and the outcomes of the
requests are, every key of the association map begins with
`https://cdn.discordapp.com/`, every local path in the map is `static/`, then
the 32 hexadecimal digits of a digest, then an extension without a `/`, and no
key occurs in a local path. -/
theorem keys_not_in_paths (entity : Str → Str × Nat) (net : Net) (content : Str) :
    (∀ k ∈ mapKeys (collect (unescapeString entity) (downloadImage net) content).replacements,
      cdnPrefix <+: k) ∧
    (∀ k p, mapGet (collect (unescapeString entity) (downloadImage net) content).replacements k
        = some p →
      ∃ h ext, p = "static/".toList ++ h ++ ext ∧ h.length = 32 ∧
        (∀ c ∈ h, c ∈ "0123456789abcdef".toList) ∧ '/' ∉ ext) ∧
    (∀ k ∈ mapKeys (collect (unescapeString entity) (downloadImage net) content).replacements,
      ∀ k2 p, mapGet (collect (unescapeString entity) (downloadImage net) content).replacements
          k2 = some p → ¬ k <:+: p) := by
  have hshape := candidateLoop_shape (unescapeString entity) (downloadImage net)
    (fun k => cdnPrefix <+: k)
    (fun p => ∃ h ext, p = "static/".toList ++ h ++ ext ∧ h.length = 32 ∧
      (∀ c ∈ h, c ∈ "0123456789abcdef".toList) ∧ '/' ∉ ext)
    (by
      intro f n v hnv
      obtain ⟨ct, -, hf, hslash⟩ := downloadImage_ok net n v f hnv
      exact ⟨md5hex v, _, by rw [hf, List.append_assoc], (md5hex_shape v).1,
        (md5hex_shape v).2, hslash⟩)
    (findAllString content) ⟨[], []⟩
    (fun raw hraw => variants_cdnPrefix entity raw (findAllString_isMatch content raw hraw))
    (fun x p hp => by simp [mapGet] at hp)
  have hkeys : ∀ k ∈ mapKeys
      (collect (unescapeString entity) (downloadImage net) content).replacements,
      cdnPrefix <+: k := by
    intro k hk
    rw [← mapGet_isSome_iff] at hk
    obtain ⟨p, hp⟩ := Option.isSome_iff_exists.1 hk
    exact (hshape k p hp).1
  refine ⟨hkeys, fun k p hp => (hshape k p hp).2, ?_⟩
  intro k hk k2 p hp hinfix
  obtain ⟨h, ext, rfl, -, hhex, hext⟩ := (hshape k2 p hp).2
  have h1 := slash_count_path h ext hhex hext
  have h3 := slash_count_key k (hkeys k hk)
  have := hinfix.sublist.count_le '/'
  omega

set_option maxRecDepth 100000 in
/-- C19 at the document
`<img src="https://cdn.discordapp.com/attachments/1/2/pic.png?ex=AA&amp;hm=BB">`:
the raw match does not occur in its local path. -/
theorem keys_not_in_paths_witness :
    ¬ "https://cdn.discordapp.com/attachments/1/2/pic.png?ex=AA&amp;hm=BB".toList
      <:+: "static/46fcb1faa208fdd61c2a8e3f5d6a31a9.png".toList :=
  (keys_not_in_paths entityAmp pngNet
    "<img src=\"https://cdn.discordapp.com/attachments/1/2/pic.png?ex=AA&amp;hm=BB\">".toList).2.2
    "https://cdn.discordapp.com/attachments/1/2/pic.png?ex=AA&amp;hm=BB".toList (by decide)
    "https://cdn.discordapp.com/attachments/1/2/pic.png?ex=AA&hm=BB".toList
    "static/46fcb1faa208fdd61c2a8e3f5d6a31a9.png".toList (by decide)

/-! ## One image, end to end -/

theorem tryDownloadWithVariants_first_ok (dl : Download) (calls : List Call) (u f : Str)
    (h : dl calls.length u = .ok f) :
    tryDownloadWithVariants dl calls u = (.ok f, calls ++ [⟨u, .ok f⟩]) := by
  unfold tryDownloadWithVariants variantsOf
  split <;> simp [tryVariants, h]

theorem unescapeAux_nil (entity : Str → Str × Nat) (k : Nat) : unescapeAux entity k [] = [] := by
  cases k <;> rfl

theorem unescapeAux_drop (entity : Str → Str × Nat) : ∀ (s : Str) (k : Nat),
    unescapeAux entity k s = unescapeAux entity 0 (s.drop k)
  | [], k => by simp [unescapeAux_nil]
  | _ :: _, 0 => rfl
  | _ :: cs, k + 1 => by
    simp only [unescapeAux, List.drop_succ_cons]
    exact unescapeAux_drop entity cs k

theorem unescapeAux_plain (entity : Str → Str × Nat) (a : Str) (h : '&' ∉ a) :
    unescapeAux entity 0 a = a := by
  have := unescapeAux_copy entity a [] h
  simpa [unescapeAux_nil] using this

/-- The decoded form of the raw match of the example, for every entity decoder
that reads `&amp;` as Go does. -/
theorem decoded_example (entity : Str → Str × Nat)
    (hent : entity "&amp;hm=BB".toList = ("&".toList, 5)) :
    decodedOf (unescapeString entity)
        "https://cdn.discordapp.com/attachments/1/2/pic.png?ex=AA&amp;hm=BB".toList
      = "https://cdn.discordapp.com/attachments/1/2/pic.png?ex=AA&hm=BB".toList := by
  have hclean : cleanedOf
      "https://cdn.discordapp.com/attachments/1/2/pic.png?ex=AA&amp;hm=BB".toList
      = "https://cdn.discordapp.com/attachments/1/2/pic.png?ex=AA".toList
        ++ '&' :: "amp;hm=BB".toList := by decide
  have hB : ('&' :: "amp;hm=BB".toList) = "&amp;hm=BB".toList := by decide
  unfold decodedOf unescapeString
  rw [hclean, unescapeAux_copy entity _ _ (by decide)]
  simp only [unescapeAux, if_true]
  rw [hB, hent, unescapeAux_drop]
  have hdrop : List.drop (5 - 1) "amp;hm=BB".toList = "hm=BB".toList := by decide
  have hfst : (("&".toList, 5) : Str × Nat).1 = "&".toList := rfl
  have hsnd : (("&".toList, 5) : Str × Nat).2 = 5 := rfl
  rw [hfst, hsnd, hdrop, unescapeAux_plain entity _ (by decide)]
  decide

set_option maxRecDepth 100000 in
/-- C12: for the document
`<img src="https://cdn.discordapp.com/attachments/1/2/pic.png?ex=AA&amp;hm=BB">`
and a fetch that succeeds, the extractor yields the one raw match
`https://cdn.discordapp.com/attachments/1/2/pic.png?ex=AA&amp;hm=BB`; the one URL
fetched is the decoded form, with `&` for `&amp;`; the file name is the MD5
digest of the decoded URL in hexadecimal followed by `.png`; the raw match
(which is also the trimmed form) and the decoded form map to `static/` followed
by that file name; and the document written back is
`<img src="static/46fcb1faa208fdd61c2a8e3f5d6a31a9.png">`, in whichever order the
keys are collected. -/
theorem end_to_end_example (entity : Str → Str × Nat) (net : Net) (ct : Str)
    (order : List Str)
    (hent : entity "&amp;hm=BB".toList = ("&".toList, 5))
    (hnet : net 0 "https://cdn.discordapp.com/attachments/1/2/pic.png?ex=AA&hm=BB".toList
      = .ok ct)
    (hperm : order.Perm (mapKeys (collect (unescapeString entity) (downloadImage net)
      "<img src=\"https://cdn.discordapp.com/attachments/1/2/pic.png?ex=AA&amp;hm=BB\">".toList).replacements)) :
    findAllString
        "<img src=\"https://cdn.discordapp.com/attachments/1/2/pic.png?ex=AA&amp;hm=BB\">".toList
      = ["https://cdn.discordapp.com/attachments/1/2/pic.png?ex=AA&amp;hm=BB".toList] ∧
    (collect (unescapeString entity) (downloadImage net)
        "<img src=\"https://cdn.discordapp.com/attachments/1/2/pic.png?ex=AA&amp;hm=BB\">".toList).calls
      = [⟨"https://cdn.discordapp.com/attachments/1/2/pic.png?ex=AA&hm=BB".toList,
          .ok (md5hex "https://cdn.discordapp.com/attachments/1/2/pic.png?ex=AA&hm=BB".toList
            ++ ".png".toList)⟩] ∧
    md5hex "https://cdn.discordapp.com/attachments/1/2/pic.png?ex=AA&hm=BB".toList
      = "46fcb1faa208fdd61c2a8e3f5d6a31a9".toList ∧
    (collect (unescapeString entity) (downloadImage net)
        "<img src=\"https://cdn.discordapp.com/attachments/1/2/pic.png?ex=AA&amp;hm=BB\">".toList).replacements
      = [("https://cdn.discordapp.com/attachments/1/2/pic.png?ex=AA&amp;hm=BB".toList,
          "static/46fcb1faa208fdd61c2a8e3f5d6a31a9.png".toList),
         ("https://cdn.discordapp.com/attachments/1/2/pic.png?ex=AA&hm=BB".toList,
          "static/46fcb1faa208fdd61c2a8e3f5d6a31a9.png".toList)] ∧
    main (unescapeString entity) (downloadImage net) order
        "<img src=\"https://cdn.discordapp.com/attachments/1/2/pic.png?ex=AA&amp;hm=BB\">".toList
      = "<img src=\"static/46fcb1faa208fdd61c2a8e3f5d6a31a9.png\">".toList := by
  have hfind : findAllString
      "<img src=\"https://cdn.discordapp.com/attachments/1/2/pic.png?ex=AA&amp;hm=BB\">".toList
      = ["https://cdn.discordapp.com/attachments/1/2/pic.png?ex=AA&amp;hm=BB".toList] := by
    decide
  have hmd5 : md5hex "https://cdn.discordapp.com/attachments/1/2/pic.png?ex=AA&hm=BB".toList
      = "46fcb1faa208fdd61c2a8e3f5d6a31a9".toList := by decide
  have hdec := decoded_example entity hent
  have hext : pathExt (urlPath
      "https://cdn.discordapp.com/attachments/1/2/pic.png?ex=AA&hm=BB".toList)
      = ".png".toList := by decide
  have hdl : downloadImage net 0
      "https://cdn.discordapp.com/attachments/1/2/pic.png?ex=AA&hm=BB".toList
      = .ok (md5hex "https://cdn.discordapp.com/attachments/1/2/pic.png?ex=AA&hm=BB".toList
          ++ ".png".toList) := by
    simp only [downloadImage, hnet, hext]
    rfl
  have htry := tryDownloadWithVariants_first_ok (downloadImage net) []
    "https://cdn.discordapp.com/attachments/1/2/pic.png?ex=AA&hm=BB".toList _ hdl
  have hclean : cleanedOf
      "https://cdn.discordapp.com/attachments/1/2/pic.png?ex=AA&amp;hm=BB".toList
      = "https://cdn.discordapp.com/attachments/1/2/pic.png?ex=AA&amp;hm=BB".toList := by
    decide
  have hstate : collect (unescapeString entity) (downloadImage net)
      "<img src=\"https://cdn.discordapp.com/attachments/1/2/pic.png?ex=AA&amp;hm=BB\">".toList
      = ⟨[("https://cdn.discordapp.com/attachments/1/2/pic.png?ex=AA&amp;hm=BB".toList,
            "static/46fcb1faa208fdd61c2a8e3f5d6a31a9.png".toList),
          ("https://cdn.discordapp.com/attachments/1/2/pic.png?ex=AA&hm=BB".toList,
            "static/46fcb1faa208fdd61c2a8e3f5d6a31a9.png".toList)],
         [⟨"https://cdn.discordapp.com/attachments/1/2/pic.png?ex=AA&hm=BB".toList,
          .ok (md5hex "https://cdn.discordapp.com/attachments/1/2/pic.png?ex=AA&hm=BB".toList
            ++ ".png".toList)⟩]⟩ := by
    unfold collect
    rw [hfind]
    simp only [candidateLoop, List.foldl_cons, List.foldl_nil]
    unfold processCandidate
    rw [if_neg (by simp [mapGet])]
    unfold decodedOf at hdec
    simp only [hdec, List.nil_append] at htry ⊢
    rw [htry]
    simp only [hclean, hmd5, List.nil_append]
    congr 1
  unfold main
  rw [hstate] at hperm ⊢
  refine ⟨hfind, rfl, hmd5, rfl, ?_⟩
  have hsorted : sortLoop order
      = ["https://cdn.discordapp.com/attachments/1/2/pic.png?ex=AA&amp;hm=BB".toList,
         "https://cdn.discordapp.com/attachments/1/2/pic.png?ex=AA&hm=BB".toList] := by
    have hp : order.Perm
        ["https://cdn.discordapp.com/attachments/1/2/pic.png?ex=AA&amp;hm=BB".toList,
         "https://cdn.discordapp.com/attachments/1/2/pic.png?ex=AA&hm=BB".toList] := hperm
    rcases perm_pair hp with rfl | rfl
    · rw [sortLoop_pair]; decide
    · rw [sortLoop_pair]; decide
  rw [hsorted]
  decide

set_option maxRecDepth 100000 in
/-- C12 with the entity decoder for `&amp;` and a world that answers every
request with `image/png`. -/
theorem end_to_end_example_witness :
    main (unescapeString entityAmp) (downloadImage pngNet)
        ["https://cdn.discordapp.com/attachments/1/2/pic.png?ex=AA&amp;hm=BB".toList,
         "https://cdn.discordapp.com/attachments/1/2/pic.png?ex=AA&hm=BB".toList]
        "<img src=\"https://cdn.discordapp.com/attachments/1/2/pic.png?ex=AA&amp;hm=BB\">".toList
      = "<img src=\"static/46fcb1faa208fdd61c2a8e3f5d6a31a9.png\">".toList :=
  (end_to_end_example entityAmp pngNet "image/png".toList
    ["https://cdn.discordapp.com/attachments/1/2/pic.png?ex=AA&amp;hm=BB".toList,
     "https://cdn.discordapp.com/attachments/1/2/pic.png?ex=AA&hm=BB".toList]
    (by decide) rfl
    (by
      have h : mapKeys (collect (unescapeString entityAmp) (downloadImage pngNet)
          "<img src=\"https://cdn.discordapp.com/attachments/1/2/pic.png?ex=AA&amp;hm=BB\">".toList).replacements
          = ["https://cdn.discordapp.com/attachments/1/2/pic.png?ex=AA&amp;hm=BB".toList,
             "https://cdn.discordapp.com/attachments/1/2/pic.png?ex=AA&hm=BB".toList] := by
        decide
      rw [h])).2.2.2.2

/-! ## Keys of equal length -/

/-- The exchange loop leaves a list whose lengths never increase. -/
theorem sortLoop_sorted (urls : List Str) :
    (sortLoop urls).Pairwise (fun a b => b.length ≤ a.length) := by
  obtain ⟨S, R, hfold, hlen, hperm, hsorted, -⟩ := outer_invariant urls urls.length le_rfl
  have hR : R = [] := by
    have := hperm.length_eq
    simp only [List.length_append] at this
    exact List.length_eq_zero.1 (by omega)
  subst hR
  unfold sortLoop
  rw [hfold]
  simpa using hsorted

/-- Two orders of the same keys, both with lengths that never increase, are the
same list when no two keys have the same length. -/
theorem sorted_order_unique (keys l1 l2 : List Str)
    (hlen : ∀ a ∈ keys, ∀ b ∈ keys, a.length = b.length → a = b)
    (h1 : l1.Perm keys) (h2 : l2.Perm keys)
    (s1 : l1.Pairwise (fun a b => b.length ≤ a.length))
    (s2 : l2.Pairwise (fun a b => b.length ≤ a.length)) : l1 = l2 :=
  List.Perm.eq_of_sorted
    (fun a b ha hb hab hba => hlen a (h1.subset ha) b (h2.subset hb) (le_antisymm hba hab))
    s1 s2 (h1.trans h2.symm)

theorem mergeSort_sorted (l : List Str) :
    (l.mergeSort (fun a b => decide (b.length ≤ a.length))).Pairwise
      (fun a b => b.length ≤ a.length) := by
  have := @List.sorted_mergeSort Str (fun a b => decide (b.length ≤ a.length))
    (fun a b c hab hbc => by
      simp only [decide_eq_true_eq] at hab hbc ⊢
      omega)
    (fun a b => by
      simp only [Bool.or_eq_true, decide_eq_true_eq]
      omega) l
  simpa using this

/-- Without ties there is nothing to break: in a map in which no two keys have
the same length, any two processing orders of the keys with lengths that never
increase are the same list; the exchange loop gives that list from every
iteration order of the map, and so does a stable sort by descending length. -/
theorem rewrite_distinct_lengths (m : GoMap) (content : Str) (keys : List Str)
    (hlen : ∀ a ∈ keys, ∀ b ∈ keys, a.length = b.length → a = b) :
    (∀ l1 l2 : List Str, l1.Perm keys → l2.Perm keys →
      l1.Pairwise (fun a b => b.length ≤ a.length) →
      l2.Pairwise (fun a b => b.length ≤ a.length) →
      l1 = l2 ∧ rewriteLoop m l1 content = rewriteLoop m l2 content) ∧
    (∀ o1 o2 : List Str, o1.Perm keys → o2.Perm keys →
      rewriteLoop m (sortLoop o1) content = rewriteLoop m (sortLoop o2) content ∧
      rewriteLoop m (sortLoop o1) content
        = rewriteLoop m (o2.mergeSort (fun a b => decide (b.length ≤ a.length))) content) := by
  constructor
  · intro l1 l2 h1 h2 s1 s2
    have := sorted_order_unique keys l1 l2 hlen h1 h2 s1 s2
    exact ⟨this, by rw [this]⟩
  · intro o1 o2 h1 h2
    have e1 := sorted_order_unique keys (sortLoop o1) (sortLoop o2) hlen
      ((sortLoop_perm o1).trans h1) ((sortLoop_perm o2).trans h2)
      (sortLoop_sorted o1) (sortLoop_sorted o2)
    have e2 := sorted_order_unique keys (sortLoop o1)
      (o2.mergeSort (fun a b => decide (b.length ≤ a.length))) hlen
      ((sortLoop_perm o1).trans h1) ((List.mergeSort_perm o2 _).trans h2)
      (sortLoop_sorted o1) (mergeSort_sorted o2)
    exact ⟨by rw [e1], by rw [e2]⟩

/-- The keys `abc` and `abcdef` collected in either order. -/
theorem rewrite_distinct_lengths_example :
    rewriteLoop [("abc".toList, "X".toList), ("abcdef".toList, "Y".toList)]
        (sortLoop ["abc".toList, "abcdef".toList]) "abc abcdef".toList
      = rewriteLoop [("abc".toList, "X".toList), ("abcdef".toList, "Y".toList)]
        (sortLoop ["abcdef".toList, "abc".toList]) "abc abcdef".toList :=
  ((rewrite_distinct_lengths [("abc".toList, "X".toList), ("abcdef".toList, "Y".toList)]
    "abc abcdef".toList ["abc".toList, "abcdef".toList] (by decide)).2
    ["abc".toList, "abcdef".toList] ["abcdef".toList, "abc".toList]
    (List.Perm.refl _) (List.Perm.swap _ _ _)).1

set_option maxRecDepth 100000 in
/-- C16 as stated fails at a document with the three matches
`https://cdn.discordapp.com/xhttps://cdn.discordapp.com/`,
`https://cdn.discordapp.com/0123456789012345678901234567` and the first followed
by `0123456789012345678901234567`, of which the third cannot be fetched.  The
two keys have the same length, 55, so both orders of them have lengths that
never increase and the exchange loop keeps either.  Their occurrences in the
third match overlap, the first replacement destroys the other occurrence, and
the two orders give different documents. -/
theorem tie_order_counterexample :
    mapKeys (collect (unescapeString entityAmp)
        (downloadImage (exceptNet
          ("https://cdn.discordapp.com/xhttps://cdn.discordapp.com/"
            ++ "0123456789012345678901234567").toList))
        ("https://cdn.discordapp.com/xhttps://cdn.discordapp.com/ "
          ++ "https://cdn.discordapp.com/0123456789012345678901234567 "
          ++ "https://cdn.discordapp.com/xhttps://cdn.discordapp.com/"
          ++ "0123456789012345678901234567").toList).replacements
      = ["https://cdn.discordapp.com/xhttps://cdn.discordapp.com/".toList,
         "https://cdn.discordapp.com/0123456789012345678901234567".toList] ∧
    sortLoop ["https://cdn.discordapp.com/xhttps://cdn.discordapp.com/".toList,
        "https://cdn.discordapp.com/0123456789012345678901234567".toList]
      = ["https://cdn.discordapp.com/xhttps://cdn.discordapp.com/".toList,
         "https://cdn.discordapp.com/0123456789012345678901234567".toList] ∧
    sortLoop ["https://cdn.discordapp.com/0123456789012345678901234567".toList,
        "https://cdn.discordapp.com/xhttps://cdn.discordapp.com/".toList]
      = ["https://cdn.discordapp.com/0123456789012345678901234567".toList,
         "https://cdn.discordapp.com/xhttps://cdn.discordapp.com/".toList] ∧
    main (unescapeString entityAmp)
        (downloadImage (exceptNet
          ("https://cdn.discordapp.com/xhttps://cdn.discordapp.com/"
            ++ "0123456789012345678901234567").toList))
        ["https://cdn.discordapp.com/xhttps://cdn.discordapp.com/".toList,
         "https://cdn.discordapp.com/0123456789012345678901234567".toList]
        ("https://cdn.discordapp.com/xhttps://cdn.discordapp.com/ "
          ++ "https://cdn.discordapp.com/0123456789012345678901234567 "
          ++ "https://cdn.discordapp.com/xhttps://cdn.discordapp.com/"
          ++ "0123456789012345678901234567").toList
      = ("static/89701208d256c1fb0a27983ac2679ca1.png "
          ++ "static/d47f81824de2c7ed1759c1da7cf2d235.png "
          ++ "static/89701208d256c1fb0a27983ac2679ca1.png"
          ++ "0123456789012345678901234567").toList ∧
    main (unescapeString entityAmp)
        (downloadImage (exceptNet
          ("https://cdn.discordapp.com/xhttps://cdn.discordapp.com/"
            ++ "0123456789012345678901234567").toList))
        ["https://cdn.discordapp.com/0123456789012345678901234567".toList,
         "https://cdn.discordapp.com/xhttps://cdn.discordapp.com/".toList]
        ("https://cdn.discordapp.com/xhttps://cdn.discordapp.com/ "
          ++ "https://cdn.discordapp.com/0123456789012345678901234567 "
          ++ "https://cdn.discordapp.com/xhttps://cdn.discordapp.com/"
          ++ "0123456789012345678901234567").toList
      = ("static/89701208d256c1fb0a27983ac2679ca1.png "
          ++ "static/d47f81824de2c7ed1759c1da7cf2d235.png "
          ++ "https://cdn.discordapp.com/x"
          ++ "static/d47f81824de2c7ed1759c1da7cf2d235.png").toList := by
  decide

/-! ## Ties between keys in a document cut into pieces -/

theorem joinPieces_rewrite (m : GoMap) (urls : List Str) (last : Str) :
    ∀ (pieces : List (Str × Char)),
    (∀ pd ∈ pieces, ∀ k ∈ urls, k ≠ [] ∧ pd.2 ∉ k) →
    rewriteLoop m urls (joinPieces pieces last)
      = joinPieces (pieces.map (fun pd => (rewriteLoop m urls pd.1, pd.2)))
          (rewriteLoop m urls last)
  | [], _ => rfl
  | (p, d) :: rest, h => by
    simp only [joinPieces, List.map_cons]
    rw [rewriteLoop_split m d urls p _ (fun k hk => h (p, d) (List.mem_cons_self _ _) k hk),
      joinPieces_rewrite m urls last rest (fun pd hpd => h pd (List.mem_cons_of_mem _ hpd))]

/-- A key that stands alone is replaced by its local path, whatever keys of the
same length are processed before or after it. -/
theorem rewriteLoop_key (m : GoMap) (K : Str) (hK : K ≠ []) :
    ∀ (urls : List Str), urls.Pairwise (fun a b => b.length ≤ a.length) → K ∈ urls →
    (∀ k ∈ urls, ¬ k <:+: (mapGet m K).getD []) →
    rewriteLoop m urls K = (mapGet m K).getD []
  | [], _, hmem, _ => by simp at hmem
  | u :: urls, hsorted, hmem, hval => by
    simp only [rewriteLoop, List.foldl_cons]
    by_cases hu : u = K
    · subst hu
      rw [replaceAll_self u _ hK]
      exact rewriteLoop_absent m urls _ (fun k hk => hval k (List.mem_cons_of_mem _ hk))
    · have hmem2 : K ∈ urls := by
        rcases List.mem_cons.1 hmem with h | h
        · exact absurd h.symm hu
        · exact h
      have hle : K.length ≤ u.length := (List.pairwise_cons.1 hsorted).1 K hmem2
      have hnot : ¬ u <:+: K := by
        intro hin
        exact hu (hin.eq_of_length (le_antisymm hin.length_le hle))
      rw [replaceAll_absent u _ K hnot]
      exact rewriteLoop_key m K hK urls (List.pairwise_cons.1 hsorted).2 hmem2
        (fun k hk => hval k (List.mem_cons_of_mem _ hk))

/-- The output for a document cut into pieces, for one processing order with
lengths that never increase. -/
theorem rewriteLoop_pieces (m : GoMap) (keys urls : List Str) (pieces : List (Str × Char))
    (last : Str) (hperm : urls.Perm keys)
    (hsorted : urls.Pairwise (fun a b => b.length ≤ a.length))
    (hsep : ∀ pd ∈ pieces, ∀ k ∈ keys, pd.2 ∉ k)
    (hpieces : ∀ pd ∈ pieces, pd.1 ∈ keys ∨ ∀ k ∈ keys, ¬ k <:+: pd.1)
    (hlast : last ∈ keys ∨ ∀ k ∈ keys, ¬ k <:+: last)
    (hval : ∀ k ∈ keys, ∀ k2 ∈ keys, ¬ k <:+: (mapGet m k2).getD []) :
    rewriteLoop m urls (joinPieces pieces last)
      = joinPieces (pieces.map (fun pd => (pieceImage m keys pd.1, pd.2)))
          (pieceImage m keys last) := by
  have hne : ∀ k ∈ keys, k ≠ [] := by
    rintro k hk rfl
    exact hval [] hk [] hk List.nil_infix
  have himage : ∀ p, (p ∈ keys ∨ ∀ k ∈ keys, ¬ k <:+: p) →
      rewriteLoop m urls p = pieceImage m keys p := by
    intro p hp
    unfold pieceImage
    by_cases hpk : p ∈ keys
    · rw [if_pos hpk]
      exact rewriteLoop_key m p (hne p hpk) urls hsorted (hperm.symm.subset hpk)
        (fun k hk => hval k (hperm.subset hk) p hpk)
    · rw [if_neg hpk]
      rcases hp with hp | hp
      · exact absurd hp hpk
      · exact rewriteLoop_absent m urls p (fun k hk => hp k (hperm.subset hk))
  rw [joinPieces_rewrite m urls last pieces
    (fun pd hpd k hk => ⟨hne k (hperm.subset hk), hsep pd hpd k (hperm.subset hk)⟩),
    himage last hlast]
  congr 1
  apply List.map_congr_left
  intro pd hpd
  rw [himage pd.1 (hpieces pd hpd)]

/-- C16, amended: let the document be cut, at bytes that occur in no key, into
pieces each of which is a key or contains no key, and let no key occur in a
local path of the map.  Then the rewritten document does not depend on how ties
between keys of equal length are broken: every processing order of the keys
with lengths that never increase gives the document in which each piece that is
a key is replaced by its local path and every other piece is left as it is.  In
particular the exchange loop gives the same output from any two iteration orders
of the map, and the same output as a stable sort by descending length.  Every
map the program builds has the property of the local paths
(`collect_key_not_in_path`).  Without the cut the output can depend on the
order of two keys of equal length: when their occurrences overlap
(`tie_order_counterexample`), and when they do not overlap but a replacement
joins the text behind it into another key (`tie_junction_example`). -/
theorem rewrite_ties_independent (m : GoMap) (content : Str) (keys : List Str)
    (pieces : List (Str × Char)) (last : Str)
    (hdoc : content = joinPieces pieces last)
    (hsep : ∀ pd ∈ pieces, ∀ k ∈ keys, pd.2 ∉ k)
    (hpieces : ∀ pd ∈ pieces, pd.1 ∈ keys ∨ ∀ k ∈ keys, ¬ k <:+: pd.1)
    (hlast : last ∈ keys ∨ ∀ k ∈ keys, ¬ k <:+: last)
    (hval : ∀ k ∈ keys, ∀ k2 ∈ keys, ¬ k <:+: (mapGet m k2).getD []) :
    (∀ l : List Str, l.Perm keys → l.Pairwise (fun a b => b.length ≤ a.length) →
      rewriteLoop m l content
        = joinPieces (pieces.map (fun pd => (pieceImage m keys pd.1, pd.2)))
            (pieceImage m keys last)) ∧
    (∀ l1 l2 : List Str, l1.Perm keys → l2.Perm keys →
      l1.Pairwise (fun a b => b.length ≤ a.length) →
      l2.Pairwise (fun a b => b.length ≤ a.length) →
      rewriteLoop m l1 content = rewriteLoop m l2 content) ∧
    (∀ o1 o2 : List Str, o1.Perm keys → o2.Perm keys →
      rewriteLoop m (sortLoop o1) content = rewriteLoop m (sortLoop o2) content ∧
      rewriteLoop m (sortLoop o1) content
        = rewriteLoop m (o2.mergeSort (fun a b => decide (b.length ≤ a.length))) content) := by
  subst hdoc
  have hone : ∀ l : List Str, l.Perm keys → l.Pairwise (fun a b => b.length ≤ a.length) →
      rewriteLoop m l (joinPieces pieces last)
        = joinPieces (pieces.map (fun pd => (pieceImage m keys pd.1, pd.2)))
            (pieceImage m keys last) := fun l hl hs =>
    rewriteLoop_pieces m keys l pieces last hl hs hsep hpieces hlast hval
  refine ⟨hone, ?_, ?_⟩
  · intro l1 l2 h1 h2 s1 s2
    rw [hone l1 h1 s1, hone l2 h2 s2]
  · intro o1 o2 h1 h2
    have e1 := hone (sortLoop o1) ((sortLoop_perm o1).trans h1) (sortLoop_sorted o1)
    have e2 := hone (sortLoop o2) ((sortLoop_perm o2).trans h2) (sortLoop_sorted o2)
    have e3 := hone (o2.mergeSort (fun a b => decide (b.length ≤ a.length)))
      ((List.mergeSort_perm o2 _).trans h2) (mergeSort_sorted o2)
    exact ⟨by rw [e1, e2], by rw [e1, e3]⟩

/-- No key of the map the program builds occurs in a local path of that map:
a key has three `/`, a local path has one. -/
theorem collect_key_not_in_path (entity : Str → Str × Nat) (net : Net) (content : Str) :
    ∀ k ∈ mapKeys (collect (unescapeString entity) (downloadImage net) content).replacements,
    ∀ k2, ¬ k <:+: (mapGet (collect (unescapeString entity) (downloadImage net)
      content).replacements k2).getD [] := by
  have hshape := candidateLoop_shape (unescapeString entity) (downloadImage net)
    (fun k => cdnPrefix <+: k)
    (fun p => ∃ h ext, p = "static/".toList ++ h ++ ext ∧ h.length = 32 ∧
      (∀ c ∈ h, c ∈ "0123456789abcdef".toList) ∧ '/' ∉ ext)
    (by
      intro f n v hnv
      obtain ⟨ct, -, hf, hslash⟩ := downloadImage_ok net n v f hnv
      exact ⟨md5hex v, _, by rw [hf, List.append_assoc], (md5hex_shape v).1,
        (md5hex_shape v).2, hslash⟩)
    (findAllString content) ⟨[], []⟩
    (fun raw hraw => variants_cdnPrefix entity raw (findAllString_isMatch content raw hraw))
    (fun x p hp => by simp [mapGet] at hp)
  intro k hk k2 hinfix
  have hpre : cdnPrefix <+: k := by
    rw [← mapGet_isSome_iff] at hk
    obtain ⟨p, hp⟩ := Option.isSome_iff_exists.1 hk
    exact (hshape k p hp).1
  have h3 := slash_count_key k hpre
  cases hp : mapGet (collect (unescapeString entity) (downloadImage net)
      content).replacements k2 with
  | none =>
    rw [hp] at hinfix
    have := hinfix.sublist.count_le '/'
    simp only [Option.getD_none, List.count_nil] at this
    omega
  | some p =>
    rw [hp] at hinfix
    obtain ⟨h, ext, rfl, -, hhex, hext⟩ := (hshape k2 p hp).2
    have h1 := slash_count_path h ext hhex hext
    have := hinfix.sublist.count_le '/'
    simp only [Option.getD_some] at this
    omega

/-- The program on a document cut into pieces: whatever the entity decoder and
the outcomes of the requests are, when the document is cut, at bytes that occur
in no key of the map, into pieces each of which is a key or contains no key,
every iteration order of the map gives the document in which each piece that is
a key is replaced by its local path, and so any two of them give the same
document, ties between keys of equal length included. -/
theorem main_pieces (entity : Str → Str × Nat) (net : Net)
    (pieces : List (Str × Char)) (last : Str) (order : List Str)
    (horder : order.Perm (mapKeys (collect (unescapeString entity) (downloadImage net)
      (joinPieces pieces last)).replacements))
    (hsep : ∀ pd ∈ pieces, ∀ k ∈ mapKeys (collect (unescapeString entity) (downloadImage net)
      (joinPieces pieces last)).replacements, pd.2 ∉ k)
    (hpieces : ∀ pd ∈ pieces,
      pd.1 ∈ mapKeys (collect (unescapeString entity) (downloadImage net)
        (joinPieces pieces last)).replacements ∨
      ∀ k ∈ mapKeys (collect (unescapeString entity) (downloadImage net)
        (joinPieces pieces last)).replacements, ¬ k <:+: pd.1)
    (hlast : last ∈ mapKeys (collect (unescapeString entity) (downloadImage net)
        (joinPieces pieces last)).replacements ∨
      ∀ k ∈ mapKeys (collect (unescapeString entity) (downloadImage net)
        (joinPieces pieces last)).replacements, ¬ k <:+: last) :
    main (unescapeString entity) (downloadImage net) order (joinPieces pieces last)
      = joinPieces
          (pieces.map (fun pd =>
            (pieceImage (collect (unescapeString entity) (downloadImage net)
                (joinPieces pieces last)).replacements
              (mapKeys (collect (unescapeString entity) (downloadImage net)
                (joinPieces pieces last)).replacements) pd.1, pd.2)))
          (pieceImage (collect (unescapeString entity) (downloadImage net)
              (joinPieces pieces last)).replacements
            (mapKeys (collect (unescapeString entity) (downloadImage net)
              (joinPieces pieces last)).replacements) last) :=
  rewriteLoop_pieces _ _ (sortLoop order) pieces last ((sortLoop_perm order).trans horder)
    (sortLoop_sorted order) hsep hpieces hlast
    (fun k hk k2 _ => collect_key_not_in_path entity net _ k hk k2)

set_option maxRecDepth 100000 in
/-- C16 amended, at the document
`<img src="https://cdn.discordapp.com/a.png"> <img src="https://cdn.discordapp.com/b.png">`
cut at its four `"`, with the map the program builds when every fetch succeeds.
The two keys have the same length, 32, the exchange loop keeps either order of
them, and both orders give the same document. -/
theorem rewrite_ties_independent_witness :
    mapKeys (collect (unescapeString entityAmp) (downloadImage pngNet)
        ("<img src=\"https://cdn.discordapp.com/a.png\"> "
          ++ "<img src=\"https://cdn.discordapp.com/b.png\">").toList).replacements
      = ["https://cdn.discordapp.com/a.png".toList, "https://cdn.discordapp.com/b.png".toList] ∧
    sortLoop ["https://cdn.discordapp.com/a.png".toList, "https://cdn.discordapp.com/b.png".toList]
      = ["https://cdn.discordapp.com/a.png".toList, "https://cdn.discordapp.com/b.png".toList] ∧
    sortLoop ["https://cdn.discordapp.com/b.png".toList, "https://cdn.discordapp.com/a.png".toList]
      = ["https://cdn.discordapp.com/b.png".toList, "https://cdn.discordapp.com/a.png".toList] ∧
    main (unescapeString entityAmp) (downloadImage pngNet)
        ["https://cdn.discordapp.com/a.png".toList, "https://cdn.discordapp.com/b.png".toList]
        ("<img src=\"https://cdn.discordapp.com/a.png\"> "
          ++ "<img src=\"https://cdn.discordapp.com/b.png\">").toList
      = main (unescapeString entityAmp) (downloadImage pngNet)
        ["https://cdn.discordapp.com/b.png".toList, "https://cdn.discordapp.com/a.png".toList]
        ("<img src=\"https://cdn.discordapp.com/a.png\"> "
          ++ "<img src=\"https://cdn.discordapp.com/b.png\">").toList ∧
    main (unescapeString entityAmp) (downloadImage pngNet)
        ["https://cdn.discordapp.com/b.png".toList, "https://cdn.discordapp.com/a.png".toList]
        ("<img src=\"https://cdn.discordapp.com/a.png\"> "
          ++ "<img src=\"https://cdn.discordapp.com/b.png\">").toList
      = ("<img src=\"static/b6f8b13563b277cf4728ae1b49db7b93.png\"> "
          ++ "<img src=\"static/5142b4cf71d0e0e7b4c98b840a502be5.png\">").toList :=
  have h := rewrite_ties_independent
    (collect (unescapeString entityAmp) (downloadImage pngNet)
      ("<img src=\"https://cdn.discordapp.com/a.png\"> "
        ++ "<img src=\"https://cdn.discordapp.com/b.png\">").toList).replacements
    ("<img src=\"https://cdn.discordapp.com/a.png\"> "
      ++ "<img src=\"https://cdn.discordapp.com/b.png\">").toList
    ["https://cdn.discordapp.com/a.png".toList, "https://cdn.discordapp.com/b.png".toList]
    [("<img src=".toList, '"'), ("https://cdn.discordapp.com/a.png".toList, '"'),
     ("> <img src=".toList, '"'), ("https://cdn.discordapp.com/b.png".toList, '"')]
    ">".toList (by decide) (by decide) (by decide) (by decide) (by decide)
  ⟨by decide, by decide, by decide,
    (h.2.2 ["https://cdn.discordapp.com/a.png".toList, "https://cdn.discordapp.com/b.png".toList]
      ["https://cdn.discordapp.com/b.png".toList, "https://cdn.discordapp.com/a.png".toList]
      (List.Perm.refl _) (List.Perm.swap _ _ _)).1,
    (h.1 (sortLoop ["https://cdn.discordapp.com/b.png".toList,
        "https://cdn.discordapp.com/a.png".toList])
      ((sortLoop_perm _).trans (List.Perm.swap _ _ _)) (sortLoop_sorted _)).trans (by decide)⟩

set_option maxRecDepth 100000 in
/-- Occurrences that do not overlap are not enough.  The document has the three
matches `https://cdn.discordapp.com/a.h?x`, `https://cdn.discordapp.com/zzzzz`
and the first followed by `ttps://cdn.discordapp.com/zzzzz`, of which the third
cannot be fetched.  The two keys have the same length, 32, and the second key
does not occur in the third match.  The local path of the first key ends in
`.h`, so replacing the first key in the third match joins that `h` to the text
behind it into an occurrence of the second key: processing the first key first
replaces it, processing the second key first leaves it. -/
theorem tie_junction_example :
    mapKeys (collect (unescapeString entityAmp)
        (downloadImage (exceptNet
          ("https://cdn.discordapp.com/a.h?x" ++ "ttps://cdn.discordapp.com/zzzzz").toList))
        ("https://cdn.discordapp.com/a.h?x https://cdn.discordapp.com/zzzzz "
          ++ "https://cdn.discordapp.com/a.h?x"
          ++ "ttps://cdn.discordapp.com/zzzzz").toList).replacements
      = ["https://cdn.discordapp.com/a.h?x".toList,
         "https://cdn.discordapp.com/zzzzz".toList] ∧
    ¬ "https://cdn.discordapp.com/zzzzz".toList
      <:+: ("https://cdn.discordapp.com/a.h?x" ++ "ttps://cdn.discordapp.com/zzzzz").toList ∧
    sortLoop ["https://cdn.discordapp.com/a.h?x".toList,
        "https://cdn.discordapp.com/zzzzz".toList]
      = ["https://cdn.discordapp.com/a.h?x".toList,
         "https://cdn.discordapp.com/zzzzz".toList] ∧
    sortLoop ["https://cdn.discordapp.com/zzzzz".toList,
        "https://cdn.discordapp.com/a.h?x".toList]
      = ["https://cdn.discordapp.com/zzzzz".toList,
         "https://cdn.discordapp.com/a.h?x".toList] ∧
    main (unescapeString entityAmp)
        (downloadImage (exceptNet
          ("https://cdn.discordapp.com/a.h?x" ++ "ttps://cdn.discordapp.com/zzzzz").toList))
        ["https://cdn.discordapp.com/a.h?x".toList,
         "https://cdn.discordapp.com/zzzzz".toList]
        ("https://cdn.discordapp.com/a.h?x https://cdn.discordapp.com/zzzzz "
          ++ "https://cdn.discordapp.com/a.h?x"
          ++ "ttps://cdn.discordapp.com/zzzzz").toList
      = ("static/b2644a14d2e22609c3267ecd084ca314.h "
          ++ "static/351a7321eb54b207e326325a693313fc.png "
          ++ "static/b2644a14d2e22609c3267ecd084ca314."
          ++ "static/351a7321eb54b207e326325a693313fc.png").toList ∧
    main (unescapeString entityAmp)
        (downloadImage (exceptNet
          ("https://cdn.discordapp.com/a.h?x" ++ "ttps://cdn.discordapp.com/zzzzz").toList))
        ["https://cdn.discordapp.com/zzzzz".toList,
         "https://cdn.discordapp.com/a.h?x".toList]
        ("https://cdn.discordapp.com/a.h?x https://cdn.discordapp.com/zzzzz "
          ++ "https://cdn.discordapp.com/a.h?x"
          ++ "ttps://cdn.discordapp.com/zzzzz").toList
      = ("static/b2644a14d2e22609c3267ecd084ca314.h "
          ++ "static/351a7321eb54b207e326325a693313fc.png "
          ++ "static/b2644a14d2e22609c3267ecd084ca314.h"
          ++ "ttps://cdn.discordapp.com/zzzzz").toList := by
  decide

end DiscordDownloader
